import Mathlib

/-!
# Verification development for `syncer.go`

A shallow embedding of the host-to-container syncer.  Go strings are byte
sequences; they are modelled as character lists (`Str`).  Every string
operation the program performs (`strings.HasSuffix` with `"~"`,
`filepath.Clean`, `filepath.Rel`, concatenation) only inspects the ASCII
bytes `/`, `.` and `~`, so the character view and the byte view agree.

Side effects (external `docker` processes, coloured terminal output and
`watcher.Add`) are recorded, in program order, in a trace that each function
receives and returns.  The outcome of an external call is supplied by an
environment that may look at everything that happened before the call.

The library functions `filepath.Clean`, `filepath.Rel`, `strings.HasSuffix`,
`fsnotify.Op.Has` and `os.FileMode.IsDir` are embedded from the Go sources for
a Unix host (separator `/`, empty volume names, case-sensitive comparison).
-/

set_option autoImplicit false

namespace DockerSync

/-- A Go string. -/
abbrev Str := List Char

deriving instance DecidableEq for Except

/-! ## Library: `strings` -/

/-- Go `strings.HasSuffix`:
`len(s) >= len(suffix) && s[len(s)-len(suffix):] == suffix`. -/
def HasSuffix (s suffix : Str) : Bool :=
  decide (s.length ≥ suffix.length) && (s.drop (s.length - suffix.length) == suffix)

/-! ## Library: `path/filepath` (Unix) -/

/-- The path separator, `filepath.Separator`. -/
def Separator : Char := '/'

/-- Go `os.IsPathSeparator` on Unix. -/
def IsPathSeparator (c : Char) : Bool := c == Separator

/-- The backtracking step of `Clean` on a `..` element, on the written part of
the buffer (`w = out.length`):
`out.w--; for out.w > dotdot && !IsPathSeparator(out.index(out.w)) { out.w-- }`.
The argument `w` is the value of `out.w` after the first decrement; the result
is the final `out.w`. -/
def backtrackTo (out : Str) (dotdot : Nat) : Nat → Nat
  | 0 => 0
  | w + 1 =>
    if w + 1 > dotdot && !IsPathSeparator (out.getD (w + 1) ' ') then backtrackTo out dotdot w
    else w + 1

/-- The main loop `for r < n { switch ... }` of `filepath.Clean`.  The list
argument is the unread input `path[r:]`, `out` is the written part of the
buffer (`out.w = out.length`).  Every round consumes at least one byte, so the
first argument, which bounds the number of rounds, is never exhausted when it
starts at `len(path)`. -/
def cleanLoop (rooted : Bool) : Nat → Str → Str → Nat → Str
  | _, [], out, _ => out
  | 0, _ :: _, out, _ => out
  | fuel + 1, c :: rest, out, dotdot =>
    if IsPathSeparator c then
      -- empty path element
      cleanLoop rooted fuel rest out dotdot
    else if c == '.' && (rest.isEmpty || IsPathSeparator (rest.headD ' ')) then
      -- . element
      cleanLoop rooted fuel rest out dotdot
    else if c == '.' && rest.headD ' ' == '.'
        && (rest.tail.isEmpty || IsPathSeparator (rest.tail.headD ' ')) then
      -- .. element: remove to last separator
      if out.length > dotdot then
        -- can backtrack
        cleanLoop rooted fuel rest.tail (out.take (backtrackTo out dotdot (out.length - 1))) dotdot
      else if !rooted then
        -- cannot backtrack, but not rooted, so append .. element
        let out1 := if out.length > 0 then out ++ [Separator] else out
        let out2 := out1 ++ ['.', '.']
        cleanLoop rooted fuel rest.tail out2 out2.length
      else
        cleanLoop rooted fuel rest.tail out dotdot
    else
      -- real path element: add slash if needed, then copy the element
      let out1 :=
        if (rooted && out.length != 1) || (!rooted && out.length != 0) then out ++ [Separator]
        else out
      cleanLoop rooted fuel ((c :: rest).dropWhile (fun x => !IsPathSeparator x))
        (out1 ++ (c :: rest).takeWhile (fun x => !IsPathSeparator x)) dotdot

/-- Go `filepath.Clean` on Unix (the volume name is empty and `FromSlash` is
the identity). -/
def Clean (path : Str) : Str :=
  if path.isEmpty then ['.']
  else
    let rooted := IsPathSeparator (path.headD ' ')
    let out :=
      if rooted then cleanLoop rooted path.length path.tail [Separator] 1
      else cleanLoop rooted path.length path [] 0
    if out.length == 0 then ['.'] else out

/-- Go slice expression `s[i:j]`. -/
def slice (s : Str) (i j : Nat) : Str := (s.take j).drop i

/-- The inner loop `for i < len(s) && s[i] != Separator { i++ }` of
`filepath.Rel`: the index of the first separator at or after `i`, or `len(s)`. -/
def skipElem (s : Str) (i : Nat) : Nat :=
  i + ((s.drop i).takeWhile (fun x => x != Separator)).length

/-- The loop of `filepath.Rel` that positions `base[b0:bi]` and `targ[t0:ti]`
at the first differing elements; returns the final `(b0, bi, t0, ti)`.  It runs
as long as one of the two paths has an unread element, so that on leaving it
`base[b0:bi]` is the first element of the base that the target does not share
(empty when the base is used up), and `Rel("../..", "..")` is an error.  Every
round that does not leave the loop increases `bi` or `ti`, so the first
argument, which bounds the number of rounds, is never exhausted when it starts
at `len(base) + len(targ) + 1`. -/
def relLoop (base targ : Str) : Nat → Nat → Nat → Nat → Nat → Nat × Nat × Nat × Nat
  | 0, b0, bi, t0, ti => (b0, bi, t0, ti)
  | fuel + 1, b0, bi, t0, ti =>
    if bi < base.length ∨ ti < targ.length then
      let bi1 := skipElem base bi
      let ti1 := skipElem targ ti
      if slice targ t0 ti1 != slice base b0 bi1 then (b0, bi1, t0, ti1)
      else
        let bi2 := if bi1 < base.length then bi1 + 1 else bi1
        let ti2 := if ti1 < targ.length then ti1 + 1 else ti1
        relLoop base targ fuel bi2 bi2 ti2 ti2
    else (b0, bi, t0, ti)

/-- The error value of `filepath.Rel`. -/
def relError (basepath targpath : Str) : Str :=
  "Rel: can't make ".toList ++ targpath ++ " relative to ".toList ++ basepath

/-- Go `filepath.Rel` on Unix (`VolumeName` is empty, `sameWord` is `==`). -/
def Rel (basepath targpath : Str) : Except Str Str :=
  let base0 := Clean basepath
  let targ := Clean targpath
  if targ == base0 then .ok ['.']
  else
    let base := if base0 == ['.'] then [] else base0
    let baseSlashed := decide (base.length > 0) && base.headD ' ' == Separator
    let targSlashed := decide (targ.length > 0) && targ.headD ' ' == Separator
    if baseSlashed != targSlashed then .error (relError basepath targpath)
    else
      let bl := base.length
      let tl := targ.length
      match relLoop base targ (bl + tl + 1) 0 0 0 0 with
      | (b0, bi, t0, _) =>
        if slice base b0 bi == ['.', '.'] then .error (relError basepath targpath)
        else if b0 != bl then
          -- base elements left: must go up before going down
          let seps := (slice base b0 bl).count Separator
          let up := ['.', '.'] ++ (List.replicate seps [Separator, '.', '.']).flatten
          if t0 != tl then .ok (up ++ [Separator] ++ targ.drop t0) else .ok up
        else .ok (targ.drop t0)

/-! ## Library: `fsnotify` and `os` -/

/-- The bit set `fsnotify.Op` (a `uint32`). -/
abbrev Op := Nat

/-- The operation `fsnotify.Create`, `1 << 0`. -/
def Create : Op := 1
/-- The operation `fsnotify.Write`, `1 << 1`. -/
def Write : Op := 2
/-- The operation `fsnotify.Remove`, `1 << 2`. -/
def Remove : Op := 4
/-- The operation `fsnotify.Rename`, `1 << 3`. -/
def Rename : Op := 8
/-- The operation `fsnotify.Chmod`, `1 << 4`. -/
def Chmod : Op := 16

/-- The type `fsnotify.Event`. -/
structure Event where
  Name : Str
  Op : DockerSync.Op
deriving DecidableEq, Repr

/-- Go `fsnotify.Event.Has`: `e.Op&op != 0` (for the single-bit operations
used by the program the same as `e.Op&op == op`). -/
def Event.Has (e : Event) (op : DockerSync.Op) : Bool := e.Op &&& op != 0

/-- The part of `os.FileInfo` the program reads: `Mode()`, a `uint32`. -/
structure FileInfo where
  Mode : Nat
deriving DecidableEq, Repr

/-- The bit `os.ModeDir`, `1 << 31`. -/
def ModeDir : Nat := 2147483648

/-- Go `os.FileMode.IsDir`: `m&ModeDir != 0`. -/
def IsDir (m : Nat) : Bool := m &&& ModeDir != 0

/-! ## The program -/

/-- The configuration `Syncer`. -/
structure Syncer where
  HostPath : Str
  ContainerPath : Str
  UserName : Str
  GroupName : Str
  ContainerName : Str
deriving DecidableEq, Repr

/-- An external process `exec.Command(name, args...)`. -/
structure Command where
  name : Str
  args : List Str
deriving DecidableEq, Repr

/-- The colours of `gookit/color` the program prints with. -/
inductive Color where
  | cyan
  | red
  | green
deriving DecidableEq, Repr

/-- An observable action of the program. -/
inductive Effect where
  /-- running `exec.Command(...).Output()` -/
  | exec (c : Command)
  /-- a call `color.<c>.Println(args...)` (or `color.<c>.Print(args...)`) -/
  | print (c : Color) (args : List Str)
  /-- a call `watcher.Add(path)` -/
  | watchAdd (path : Str)
deriving DecidableEq, Repr

/-- What the program has done so far, oldest action first. -/
abbrev Trace := List Effect

/-- The world outside the program: the error (if any) of an external command
and of `watcher.Add`, given everything that happened before. -/
structure Env where
  run : Trace → Command → Option Str
  add : Trace → Str → Option Str

/-- The function `getRelativePath`. -/
def getRelativePath (event : Event) (syncer : Syncer) : Except Str Str :=
  match Rel syncer.HostPath event.Name with
  | .error err => .error err
  | .ok relativePath => .ok relativePath

/-- The command `docker cp <event.Name> <ContainerName>:<ContainerPath>`. -/
def copyCommand (event : Event) (syncer : Syncer) : Command :=
  ⟨"docker".toList,
    ["cp".toList, event.Name, syncer.ContainerName ++ ":".toList ++ syncer.ContainerPath]⟩

/-- The command `docker exec <ContainerName> rm <ContainerPath>/<relativePath>`. -/
def removeCommand (syncer : Syncer) (relativePath : Str) : Command :=
  ⟨"docker".toList,
    ["exec".toList, syncer.ContainerName, "rm".toList,
      syncer.ContainerPath ++ "/".toList ++ relativePath]⟩

/-- The command
`docker exec <ContainerName> chown <UserName>:<GroupName> <ContainerPath>/<relativePath>`. -/
def chownCommand (s : Syncer) (relativePath : Str) : Command :=
  ⟨"docker".toList,
    ["exec".toList, s.ContainerName, "chown".toList,
      s.UserName ++ ":".toList ++ s.GroupName,
      s.ContainerPath ++ "/".toList ++ relativePath]⟩

/-- The function `copyFromHostToContainer`. -/
def copyFromHostToContainer (env : Env) (event : Event) (syncer : Syncer) (tr : Trace) : Trace :=
  match getRelativePath event syncer with
  | .error _ => tr
  | .ok relativePath =>
    match env.run tr (copyCommand event syncer) with
    | some err =>
      tr ++ [.exec (copyCommand event syncer),
             .print .red [err, "can't copy to container".toList]]
    | none =>
      tr ++ [.exec (copyCommand event syncer),
             .print .green ["Copied: ".toList ++ relativePath ++ " to ".toList
               ++ syncer.ContainerName ++ ":".toList
               ++ (syncer.ContainerPath ++ "/".toList ++ relativePath)]]

/-- The function `removeFromContainer`. -/
def removeFromContainer (env : Env) (event : Event) (syncer : Syncer) (tr : Trace) : Trace :=
  match getRelativePath event syncer with
  | .error _ => tr
  | .ok relativePath =>
    match env.run tr (removeCommand syncer relativePath) with
    | some err =>
      tr ++ [.exec (removeCommand syncer relativePath),
             .print .red [err, "cant remove from container".toList]]
    | none =>
      tr ++ [.exec (removeCommand syncer relativePath),
             .print .red ["Removed: ".toList ++ syncer.ContainerPath ++ "/".toList
               ++ relativePath]]

/-- The function `applyPermissionsToFile`. -/
def applyPermissionsToFile (env : Env) (event : Event) (s : Syncer) (tr : Trace) : Trace :=
  match getRelativePath event s with
  | .error _ => tr
  | .ok relativePath =>
    match env.run tr (chownCommand s relativePath) with
    | some err =>
      tr ++ [.exec (chownCommand s relativePath),
             .print .red [err, "can't remove from container".toList]]
    | none => tr ++ [.exec (chownCommand s relativePath)]

/-- The function `handleWrite`. -/
def handleWrite (env : Env) (event : Event) (syncer : Syncer) (tr : Trace) : Trace :=
  applyPermissionsToFile env event syncer (copyFromHostToContainer env event syncer tr)

/-- The function `handleCreate`. -/
def handleCreate (env : Env) (event : Event) (syncer : Syncer) (tr : Trace) : Trace :=
  applyPermissionsToFile env event syncer (copyFromHostToContainer env event syncer tr)

/-- The function `handleRemove`. -/
def handleRemove (env : Env) (event : Event) (syncer : Syncer) (tr : Trace) : Trace :=
  removeFromContainer env event syncer tr

/-- The function `handleRename`. -/
def handleRename (env : Env) (event : Event) (syncer : Syncer) (tr : Trace) : Trace :=
  removeFromContainer env event syncer tr

/-- The function `eventHandler`. -/
def eventHandler (env : Env) (event : Event) (syncer : Syncer) (tr : Trace) : Trace :=
  if HasSuffix event.Name "~".toList then
    tr ++ [.print .cyan ["Skipping: ".toList, event.Name]]
  else
    let tr1 := if event.Has Write then handleWrite env event syncer tr else tr
    let tr2 := if event.Has Create then handleCreate env event syncer tr1 else tr1
    let tr3 := if event.Has Remove then handleRemove env event syncer tr2 else tr2
    if event.Has Rename then handleRename env event syncer tr3 else tr3

/-- The function `dirWalker`: the error it returns and the trace after it. -/
def dirWalker (env : Env) (path : Str) (fi : Option FileInfo) (_err : Option Str)
    (tr : Trace) : Option Str × Trace :=
  match fi with
  | none => (none, tr)
  | some info =>
    if IsDir info.Mode then (env.add tr path, tr ++ [.watchAdd path])
    else (none, tr)

/-- What the watcher delivers to the goroutine of `watchDir`: an event on
`watcher.Events` or an error on `watcher.Errors`. -/
inductive Delivery where
  | event (e : Event)
  | error (err : Str)
deriving DecidableEq, Repr

/-- The goroutine of `watchDir`,
`for { select { case event: eventHandler(event, syncer); case err: color.Red.Print("error:", err) } }`,
on the deliveries it receives until the channels are closed. -/
def eventLoop (env : Env) (syncer : Syncer) : List Delivery → Trace → Trace
  | [], tr => tr
  | .event e :: rest, tr => eventLoop env syncer rest (eventHandler env e syncer tr)
  | .error err :: rest, tr =>
    eventLoop env syncer rest (tr ++ [.print .red ["error:".toList, err]])

/-! ## Observations on traces -/

/-- The external commands of a trace, in order. -/
def commands : Trace → List Command
  | [] => []
  | .exec c :: tr => c :: commands tr
  | _ :: tr => commands tr

/-- The paths handed to `watcher.Add` in a trace, in order. -/
def registrations : Trace → List Str
  | [] => []
  | .watchAdd p :: tr => p :: registrations tr
  | _ :: tr => registrations tr

/-- A copy command: `docker cp ...`. -/
def isCopy (c : Command) : Bool :=
  c.name == "docker".toList && c.args.head? == some "cp".toList

/-- An ownership command: `docker exec <container> chown ...`. -/
def isChown (c : Command) : Bool :=
  c.name == "docker".toList && c.args.head? == some "exec".toList
    && c.args.get? 2 == some "chown".toList

/-- A delete command: `docker exec <container> rm ...`. -/
def isDelete (c : Command) : Bool :=
  c.name == "docker".toList && c.args.head? == some "exec".toList
    && c.args.get? 2 == some "rm".toList

/-- An environment in which every external call succeeds. -/
def envOk : Env := ⟨fun _ _ => none, fun _ _ => none⟩

/-- An environment in which every external call fails. -/
def envFail : Env := ⟨fun _ _ => some "exit status 1".toList, fun _ _ => some "no such file".toList⟩

/-- The scenario configuration: host root `/src`, container path `/app`,
container `web`, default user and group. -/
def demo : Syncer :=
  ⟨"/src".toList, "/app".toList, "www-data".toList, "www-data".toList, "web".toList⟩

/-- The scenario path `/src/a/b.txt`. -/
def demoPath : Str := "/src/a/b.txt".toList

/-- A path segment: not empty and without separator. -/
def isSeg (s : Str) : Bool := !s.isEmpty && s.all (fun c => !IsPathSeparator c)

/-- A proper path element: not empty, without separator, neither `.` nor `..`. -/
def isElem (s : Str) : Bool :=
  !s.isEmpty && s.all (fun c => !IsPathSeparator c) && s != ['.'] && s != ['.', '.']

/-- The relative path `a/b/c` with the given elements. -/
def relPath : List Str → Str
  | [] => []
  | [s] => s
  | s :: t :: ts => s ++ Separator :: relPath (t :: ts)

/-- The rooted path `/a/b/c` with the given elements. -/
def absPath (segs : List Str) : Str := Separator :: relPath segs

/-- A rooted path: it starts with the separator. -/
def isRooted (path : Str) : Bool := path.head? == some Separator

/-- The elements of a path: the parts of the cleaned path between separators
(the cleaned path `.` has none). -/
def elements (path : Str) : List Str :=
  ((Clean path).splitOn Separator).filter (fun e => !e.isEmpty && e != ['.'])

/-- The path `p` lies strictly under `root`: both are rooted or both are
relative, and the elements of `p` are those of `root` followed by at least one
further element, each of them a proper element (not `..`). -/
def strictlyUnder (root p : Str) : Bool :=
  isRooted root == isRooted p
    && (elements root).isPrefixOf (elements p)
    && !((elements p).drop (elements root).length).isEmpty
    && ((elements p).drop (elements root).length).all isElem

/-! ## The embedded library functions on documented examples -/

/-- The rules of `filepath.Clean` on examples: repeated separators, `.`
elements, inner and leading `..` elements, the empty path. -/
theorem Clean_examples :
    Clean "abc//def//ghi".toList = "abc/def/ghi".toList
    ∧ Clean "abc/./def".toList = "abc/def".toList
    ∧ Clean "abc/def/..".toList = "abc".toList
    ∧ Clean "abc/def/../..".toList = ".".toList
    ∧ Clean "/abc/def/../..".toList = "/".toList
    ∧ Clean "abc/def/../../..".toList = "..".toList
    ∧ Clean "/../abc".toList = "/abc".toList
    ∧ Clean "abc/../../././../def".toList = "../../def".toList
    ∧ Clean "/src/".toList = "/src".toList
    ∧ Clean "".toList = ".".toList := by
  decide

/-- The example in the documentation of `filepath.Rel`: relative to `/a`,
`/a/b/c` is `b/c`, `/b/c` is `../b/c`, and `./b/c` is an error. -/
theorem Rel_examples :
    Rel "/a".toList "/a/b/c".toList = .ok "b/c".toList
    ∧ Rel "/a".toList "/b/c".toList = .ok "../b/c".toList
    ∧ Rel "/a".toList "./b/c".toList
        = .error "Rel: can't make ./b/c relative to /a".toList
    ∧ Rel "/a/b".toList "/a/b".toList = .ok ".".toList
    ∧ Rel "/a/b/c/d".toList "/a/b".toList = .ok "../..".toList
    ∧ Rel "a/b".toList "a/b/c/d".toList = .ok "c/d".toList
    ∧ Rel ".".toList "a/b".toList = .ok "a/b".toList
    ∧ Rel ".".toList "..".toList = .ok "..".toList
    ∧ Rel "src".toList "src/a/b.txt".toList = .ok "a/b.txt".toList
    ∧ Rel "".toList "a/b.txt".toList = .ok "a/b.txt".toList
    ∧ Rel "../a".toList "..".toList = .ok "..".toList
    ∧ Rel "..".toList "../..".toList = .ok "..".toList := by
  decide

/-- The paths that `filepath.Rel` cannot make relative lexically. -/
theorem Rel_errors :
    Rel "..".toList ".".toList = .error "Rel: can't make . relative to ..".toList
    ∧ Rel "..".toList "a".toList = .error "Rel: can't make a relative to ..".toList
    ∧ Rel "../..".toList "..".toList = .error "Rel: can't make .. relative to ../..".toList
    ∧ Rel "a".toList "/a".toList = .error "Rel: can't make /a relative to a".toList
    ∧ Rel "/a".toList "a".toList = .error "Rel: can't make a relative to /a".toList := by
  decide

/-! ## Traces -/

theorem commands_append (a b : Trace) : commands (a ++ b) = commands a ++ commands b := by
  induction a with
  | nil => rfl
  | cons e a ih => cases e <;> simp [commands, ih]

theorem registrations_append (a b : Trace) :
    registrations (a ++ b) = registrations a ++ registrations b := by
  induction a with
  | nil => rfl
  | cons e a ih => cases e <;> simp [registrations, ih]

/-! ## The three container actions -/

theorem copy_commands (env : Env) (ev : Event) (s : Syncer) (tr : Trace) (r : Str)
    (h : getRelativePath ev s = .ok r) :
    commands (copyFromHostToContainer env ev s tr) = commands tr ++ [copyCommand ev s] := by
  unfold copyFromHostToContainer
  rw [h]
  simp only []
  split <;> simp [commands_append, commands]

theorem remove_commands (env : Env) (ev : Event) (s : Syncer) (tr : Trace) (r : Str)
    (h : getRelativePath ev s = .ok r) :
    commands (removeFromContainer env ev s tr) = commands tr ++ [removeCommand s r] := by
  unfold removeFromContainer
  rw [h]
  simp only []
  split <;> simp [commands_append, commands]

theorem chown_commands (env : Env) (ev : Event) (s : Syncer) (tr : Trace) (r : Str)
    (h : getRelativePath ev s = .ok r) :
    commands (applyPermissionsToFile env ev s tr) = commands tr ++ [chownCommand s r] := by
  unfold applyPermissionsToFile
  rw [h]
  simp only []
  split <;> simp [commands_append, commands]

theorem copy_of_error (env : Env) (ev : Event) (s : Syncer) (tr : Trace) (e : Str)
    (h : getRelativePath ev s = .error e) : copyFromHostToContainer env ev s tr = tr := by
  unfold copyFromHostToContainer
  rw [h]

theorem remove_of_error (env : Env) (ev : Event) (s : Syncer) (tr : Trace) (e : Str)
    (h : getRelativePath ev s = .error e) : removeFromContainer env ev s tr = tr := by
  unfold removeFromContainer
  rw [h]

theorem chown_of_error (env : Env) (ev : Event) (s : Syncer) (tr : Trace) (e : Str)
    (h : getRelativePath ev s = .error e) : applyPermissionsToFile env ev s tr = tr := by
  unfold applyPermissionsToFile
  rw [h]

theorem copy_registrations (env : Env) (ev : Event) (s : Syncer) (tr : Trace) :
    registrations (copyFromHostToContainer env ev s tr) = registrations tr := by
  unfold copyFromHostToContainer
  cases getRelativePath ev s with
  | error e => rfl
  | ok r =>
    simp only []
    split <;> simp [registrations_append, registrations]

theorem remove_registrations (env : Env) (ev : Event) (s : Syncer) (tr : Trace) :
    registrations (removeFromContainer env ev s tr) = registrations tr := by
  unfold removeFromContainer
  cases getRelativePath ev s with
  | error e => rfl
  | ok r =>
    simp only []
    split <;> simp [registrations_append, registrations]

theorem chown_registrations (env : Env) (ev : Event) (s : Syncer) (tr : Trace) :
    registrations (applyPermissionsToFile env ev s tr) = registrations tr := by
  unfold applyPermissionsToFile
  cases getRelativePath ev s with
  | error e => rfl
  | ok r =>
    simp only []
    split <;> simp [registrations_append, registrations]

/-! ## The handlers -/

theorem upsert_commands (env : Env) (ev : Event) (s : Syncer) (tr : Trace) (r : Str)
    (h : getRelativePath ev s = .ok r) :
    commands (applyPermissionsToFile env ev s (copyFromHostToContainer env ev s tr))
      = commands tr ++ [copyCommand ev s, chownCommand s r] := by
  rw [chown_commands env ev s _ r h, copy_commands env ev s tr r h]
  simp

theorem upsert_of_error (env : Env) (ev : Event) (s : Syncer) (tr : Trace) (e : Str)
    (h : getRelativePath ev s = .error e) :
    applyPermissionsToFile env ev s (copyFromHostToContainer env ev s tr) = tr := by
  rw [copy_of_error env ev s tr e h, chown_of_error env ev s tr e h]

/-- The commands of one event: an upsert for each of write and create, then a
delete for each of remove and rename, in this order. -/
theorem eventHandler_commands (env : Env) (ev : Event) (s : Syncer) (tr : Trace) (r : Str)
    (hb : HasSuffix ev.Name "~".toList = false) (h : getRelativePath ev s = .ok r) :
    commands (eventHandler env ev s tr)
      = commands tr
        ++ (if ev.Has Write then [copyCommand ev s, chownCommand s r] else [])
        ++ (if ev.Has Create then [copyCommand ev s, chownCommand s r] else [])
        ++ (if ev.Has Remove then [removeCommand s r] else [])
        ++ (if ev.Has Rename then [removeCommand s r] else []) := by
  unfold eventHandler handleWrite handleCreate handleRemove handleRename
  rw [hb]
  cases ev.Has Write <;> cases ev.Has Create <;> cases ev.Has Remove <;> cases ev.Has Rename <;>
    simp [upsert_commands env ev s _ r h, remove_commands env ev s _ r h]

theorem eventHandler_of_error (env : Env) (ev : Event) (s : Syncer) (tr : Trace) (e : Str)
    (hb : HasSuffix ev.Name "~".toList = false) (h : getRelativePath ev s = .error e) :
    eventHandler env ev s tr = tr := by
  unfold eventHandler handleWrite handleCreate handleRemove handleRename
  rw [hb]
  cases ev.Has Write <;> cases ev.Has Create <;> cases ev.Has Remove <;> cases ev.Has Rename <;>
    simp [upsert_of_error env ev s _ e h, remove_of_error env ev s _ e h]

theorem eventHandler_of_backup (env : Env) (ev : Event) (s : Syncer) (tr : Trace)
    (hb : HasSuffix ev.Name "~".toList = true) :
    eventHandler env ev s tr = tr ++ [.print .cyan ["Skipping: ".toList, ev.Name]] := by
  unfold eventHandler
  rw [hb]
  rfl

theorem eventHandler_registrations (env : Env) (ev : Event) (s : Syncer) (tr : Trace) :
    registrations (eventHandler env ev s tr) = registrations tr := by
  unfold eventHandler handleWrite handleCreate handleRemove handleRename
  cases HasSuffix ev.Name "~".toList <;> cases ev.Has Write <;> cases ev.Has Create <;>
    cases ev.Has Remove <;> cases ev.Has Rename <;>
    simp [registrations_append, registrations, copy_registrations, remove_registrations,
      chown_registrations]

theorem eventLoop_registrations (env : Env) (s : Syncer) (ds : List Delivery) :
    ∀ tr : Trace, registrations (eventLoop env s ds tr) = registrations tr := by
  induction ds with
  | nil => intro tr; rfl
  | cons d ds ih =>
    intro tr
    cases d with
    | event e => rw [eventLoop, ih, eventHandler_registrations]
    | error err =>
      rw [eventLoop, ih, registrations_append]
      simp [registrations]

/-! ## Classification of the issued commands -/

theorem isCopy_copyCommand (ev : Event) (s : Syncer) : isCopy (copyCommand ev s) = true := by
  simp [isCopy, copyCommand]

theorem isCopy_chownCommand (s : Syncer) (r : Str) : isCopy (chownCommand s r) = false := by
  simp [isCopy, chownCommand]

theorem isCopy_removeCommand (s : Syncer) (r : Str) : isCopy (removeCommand s r) = false := by
  simp [isCopy, removeCommand]

theorem isChown_copyCommand (ev : Event) (s : Syncer) : isChown (copyCommand ev s) = false := by
  simp [isChown, copyCommand]

theorem isChown_chownCommand (s : Syncer) (r : Str) : isChown (chownCommand s r) = true := by
  simp [isChown, chownCommand]

theorem isChown_removeCommand (s : Syncer) (r : Str) : isChown (removeCommand s r) = false := by
  simp [isChown, removeCommand]

theorem isDelete_copyCommand (ev : Event) (s : Syncer) : isDelete (copyCommand ev s) = false := by
  simp [isDelete, copyCommand]

theorem isDelete_chownCommand (s : Syncer) (r : Str) : isDelete (chownCommand s r) = false := by
  simp [isDelete, chownCommand]

theorem isDelete_removeCommand (s : Syncer) (r : Str) : isDelete (removeCommand s r) = true := by
  simp [isDelete, removeCommand]

/-- The numbers of copy, ownership and delete commands one event adds. -/
theorem eventHandler_counts (env : Env) (ev : Event) (s : Syncer) (tr : Trace) (r : Str)
    (hb : HasSuffix ev.Name "~".toList = false) (h : getRelativePath ev s = .ok r) :
    (commands (eventHandler env ev s tr)).countP isCopy
        = (commands tr).countP isCopy
          + ((if ev.Has Write then 1 else 0) + (if ev.Has Create then 1 else 0))
    ∧ (commands (eventHandler env ev s tr)).countP isChown
        = (commands tr).countP isChown
          + ((if ev.Has Write then 1 else 0) + (if ev.Has Create then 1 else 0))
    ∧ (commands (eventHandler env ev s tr)).countP isDelete
        = (commands tr).countP isDelete
          + ((if ev.Has Remove then 1 else 0) + (if ev.Has Rename then 1 else 0)) := by
  rw [eventHandler_commands env ev s tr r hb h]
  cases ev.Has Write <;> cases ev.Has Create <;> cases ev.Has Remove <;> cases ev.Has Rename <;>
    simp [List.countP_append, List.countP_cons, isCopy_copyCommand, isCopy_chownCommand,
      isCopy_removeCommand, isChown_copyCommand, isChown_chownCommand, isChown_removeCommand,
      isDelete_copyCommand, isDelete_chownCommand, isDelete_removeCommand]

/-! ## `filepath.Clean` on paths made of proper elements -/

theorem length_dropWhile_le (p : Char → Bool) (l : Str) : (l.dropWhile p).length ≤ l.length := by
  induction l with
  | nil => simp
  | cons a l ih =>
    rw [List.dropWhile_cons]
    split
    · simp; omega
    · simp

/-- The loop of `Clean` never runs out of rounds: once the bound covers the
unread input, a larger bound gives the same result. -/
theorem cleanLoop_fuel (rooted : Bool) :
    ∀ (f : Nat) (rest out : Str) (d : Nat), rest.length ≤ f →
      cleanLoop rooted f rest out d = cleanLoop rooted rest.length rest out d := by
  intro f
  induction f using Nat.strong_induction_on with
  | _ f ih =>
    intro rest out d hf
    cases rest with
    | nil => cases f <;> rfl
    | cons c rest =>
      cases f with
      | zero => simp at hf
      | succ f =>
        have hlen : rest.length ≤ f := by simpa using hf
        have key : ∀ (X out : Str) (d : Nat), X.length ≤ rest.length →
            cleanLoop rooted f X out d = cleanLoop rooted rest.length X out d := fun X out d hX =>
          (ih f (by omega) X out d (by omega)).trans (ih rest.length (by omega) X out d hX).symm
        have htl : rest.tail.length ≤ rest.length := by simp
        simp only [List.length_cons, cleanLoop]
        have hdw : ¬IsPathSeparator c = true →
            ((c :: rest).dropWhile (fun x => !IsPathSeparator x)).length ≤ rest.length := by
          intro h1
          have hc : (!IsPathSeparator c) = true := by simpa using h1
          rw [List.dropWhile_cons, if_pos hc]
          exact length_dropWhile_le _ _
        split_ifs with h1 h2 h3 h4 h5 <;>
          first
          | exact key _ _ _ (le_refl _)
          | exact key _ _ _ htl
          | exact key _ _ _ (hdw h1)

/-- The bound `len(path)` that `Clean` gives its loop is enough: any larger
bound gives the same result, on the whole path and on the path after its
leading separator. -/
theorem Clean_rounds_suffice (rooted : Bool) (path out : Str) (d f : Nat)
    (hf : path.length ≤ f) :
    cleanLoop rooted f path out d = cleanLoop rooted path.length path out d
    ∧ cleanLoop rooted f path.tail out d = cleanLoop rooted path.length path.tail out d := by
  have ht : path.tail.length ≤ path.length := by simp
  exact ⟨cleanLoop_fuel rooted f path out d hf,
    (cleanLoop_fuel rooted f path.tail out d (by omega)).trans
      (cleanLoop_fuel rooted path.length path.tail out d ht).symm⟩

theorem isElem_ne_nil {s : Str} (h : isElem s = true) : s ≠ [] := by
  intro hs
  subst hs
  simp [isElem] at h

theorem isElem_no_sep {s : Str} (h : isElem s = true) :
    ∀ c ∈ s, (!IsPathSeparator c) = true := by
  simp only [isElem, Bool.and_eq_true, List.all_eq_true] at h
  exact h.1.1.2

theorem takeWhile_elem (s rest : Str) (hs : ∀ c ∈ s, (!IsPathSeparator c) = true)
    (hr : rest.headD Separator = Separator) :
    (s ++ rest).takeWhile (fun x => !IsPathSeparator x) = s := by
  rw [List.takeWhile_append_of_pos hs]
  cases rest with
  | nil => simp
  | cons a rest =>
    have : a = Separator := by simpa using hr
    subst this
    simp [IsPathSeparator]

theorem dropWhile_elem (s rest : Str) (hs : ∀ c ∈ s, (!IsPathSeparator c) = true)
    (hr : rest.headD Separator = Separator) :
    (s ++ rest).dropWhile (fun x => !IsPathSeparator x) = rest := by
  rw [List.dropWhile_append_of_pos hs]
  cases rest with
  | nil => simp
  | cons a rest =>
    have : a = Separator := by simpa using hr
    subst this
    simp [IsPathSeparator]

/-- One round of the loop of `Clean` on a proper element copies the element. -/
theorem cleanLoop_elem (s rest : Str) (hs : isElem s = true)
    (hr : rest.headD Separator = Separator) (f : Nat) (out : Str) (d : Nat) :
    cleanLoop true (f + 1) (s ++ rest) out d
      = cleanLoop true f rest ((if out.length != 1 then out ++ [Separator] else out) ++ s) d := by
  have hsep := isElem_no_sep hs
  have htw := takeWhile_elem s rest hsep hr
  have hdw := dropWhile_elem s rest hsep hr
  cases s with
  | nil => simp [isElem] at hs
  | cons c cs =>
    have hc : IsPathSeparator c = false := by simpa using hsep c (by simp)
    have h2 : (c == '.' && ((cs ++ rest).isEmpty || IsPathSeparator ((cs ++ rest).headD ' ')))
        = false := by
      cases cs with
      | nil => simp [isElem] at hs; simp [hs]
      | cons c2 cs2 =>
        have hc2 : IsPathSeparator c2 = false := by simpa using hsep c2 (by simp)
        simp [hc2]
    have h3 : (c == '.' && (cs ++ rest).headD ' ' == '.'
        && ((cs ++ rest).tail.isEmpty || IsPathSeparator ((cs ++ rest).tail.headD ' ')))
        = false := by
      cases cs with
      | nil => simp [isElem] at hs; simp [hs]
      | cons c2 cs2 =>
        cases cs2 with
        | nil =>
          simp [isElem] at hs
          by_cases hcd : c = '.'
          · simp [hcd, hs.2 hcd]
          · simp [hcd]
        | cons c3 cs3 =>
          have hc3 : IsPathSeparator c3 = false := by simpa using hsep c3 (by simp)
          simp [hc3]
    rw [List.cons_append] at htw hdw ⊢
    simp only [cleanLoop, hc, h2, h3, htw, hdw]
    simp

theorem cleanLoop_sep (f : Nat) (rest out : Str) (d : Nat) :
    cleanLoop true (f + 1) (Separator :: rest) out d = cleanLoop true f rest out d := by
  simp [cleanLoop, IsPathSeparator]

/-- The loop of `Clean` copies a relative path made of proper elements. -/
theorem cleanLoop_relPath (segs : List Str) (hsegs : ∀ s ∈ segs, isElem s = true)
    (hne : segs ≠ []) :
    ∀ (f : Nat) (out : Str) (d : Nat), (relPath segs).length ≤ f → 1 ≤ out.length →
      cleanLoop true f (relPath segs) out d
        = (if out.length != 1 then out ++ [Separator] else out) ++ relPath segs := by
  induction segs with
  | nil => exact absurd rfl hne
  | cons s rest ih =>
    intro f out d hf hout
    have hs : isElem s = true := hsegs s (by simp)
    have hslen : 1 ≤ s.length := by
      have := isElem_ne_nil hs
      cases s with
      | nil => exact absurd rfl this
      | cons a l => simp
    cases rest with
    | nil =>
      simp only [relPath] at hf ⊢
      obtain ⟨f1, rfl⟩ : ∃ f1, f = f1 + 1 := ⟨f - 1, by omega⟩
      have h := cleanLoop_elem s [] hs (by simp) f1 out d
      rw [List.append_nil] at h
      rw [h]
      cases f1 <;> rfl
    | cons t ts =>
      simp only [relPath, List.length_append, List.length_cons] at hf ⊢
      obtain ⟨f2, rfl⟩ : ∃ f2, f = f2 + 1 + 1 := ⟨f - 2, by omega⟩
      rw [cleanLoop_elem s (Separator :: relPath (t :: ts)) hs (by simp) (f2 + 1) out d,
        cleanLoop_sep,
        ih (fun x hx => hsegs x (by simp [hx])) (by simp) f2 _ d (by omega)
          (by split <;> simp <;> omega)]
      have : ((if out.length != 1 then out ++ [Separator] else out) ++ s).length != 1 := by
        split <;> simp <;> omega
      rw [if_pos this]
      simp

/-- The function `Clean` leaves a rooted path made of proper elements as it is. -/
theorem Clean_absPath (segs : List Str) (hsegs : ∀ s ∈ segs, isElem s = true) :
    Clean (absPath segs) = absPath segs := by
  cases segs with
  | nil => rfl
  | cons s rest =>
    have h := cleanLoop_relPath (s :: rest) hsegs (by simp)
      (absPath (s :: rest)).length [Separator] 1 (by simp [absPath]) (by simp)
    simp only [Clean, absPath, List.isEmpty_cons, List.headD_cons, List.tail_cons] at h ⊢
    simp only [IsPathSeparator, beq_self_eq_true, if_true] at h ⊢
    rw [h]
    simp

/-! ## `filepath.Rel` on paths made of segments -/

theorem relPath_cons (c : Str) (l : List Str) :
    relPath (c :: l) = c ++ (if l = [] then [] else Separator :: relPath l) := by
  cases l <;> simp [relPath]

theorem isElem_sepfree {s : Str} (h : isElem s = true) :
    ∀ c ∈ s, (c != Separator) = true := by
  intro c hc
  have := isElem_no_sep h c hc
  simpa [IsPathSeparator] using this

theorem isElem_isSeg {s : Str} (h : isElem s = true) : isSeg s = true := by
  simp only [isElem, Bool.and_eq_true] at h
  simp only [isSeg, Bool.and_eq_true]
  exact h.1.1

theorem isSeg_ne_nil {s : Str} (h : isSeg s = true) : s ≠ [] := by
  intro hs
  subst hs
  simp [isSeg] at h

theorem isSeg_sepfree {s : Str} (h : isSeg s = true) :
    ∀ c ∈ s, (c != Separator) = true := by
  intro c hc
  simp only [isSeg, Bool.and_eq_true, List.all_eq_true] at h
  have := h.2 c hc
  simpa [IsPathSeparator] using this

theorem isElem_ne_dotdot {s : Str} (h : isElem s = true) : s ≠ ['.', '.'] := by
  intro hs
  subst hs
  simp [isElem] at h

theorem isElem_ne_dot {s : Str} (h : isElem s = true) : s ≠ ['.'] := by
  intro hs
  subst hs
  simp [isElem] at h

theorem skipElem_at (s P c R : Str) (hs : s = P ++ (c ++ R))
    (hc : ∀ x ∈ c, (x != Separator) = true) (hR : R.headD Separator = Separator) :
    skipElem s P.length = P.length + c.length := by
  subst hs
  unfold skipElem
  rw [List.drop_left, List.takeWhile_append_of_pos hc]
  cases R with
  | nil => simp
  | cons a R =>
    have : a = Separator := by simpa using hR
    subst this
    simp

theorem slice_at (s P c R : Str) (hs : s = P ++ (c ++ R)) :
    slice s P.length (P.length + c.length) = c := by
  subst hs
  unfold slice
  rw [← List.append_assoc, ← List.length_append, List.take_left, List.drop_left]

/-- One round of the loop of `Rel` on equal elements. -/
theorem relLoop_match (base targ P Q c Rb Rt : Str) (hb : base = P ++ (c ++ Rb))
    (ht : targ = Q ++ (c ++ Rt)) (hc : ∀ x ∈ c, (x != Separator) = true)
    (hRb : Rb.headD Separator = Separator) (hRt : Rt.headD Separator = Separator)
    (hbne : c ++ Rb ≠ []) (htne : c ++ Rt ≠ []) (f : Nat) :
    relLoop base targ (f + 1) P.length P.length Q.length Q.length
      = relLoop base targ f (P.length + c.length + min 1 Rb.length)
          (P.length + c.length + min 1 Rb.length)
          (Q.length + c.length + min 1 Rt.length) (Q.length + c.length + min 1 Rt.length) := by
  have hbl : base.length = P.length + c.length + Rb.length := by
    rw [hb]; simp; omega
  have htl : targ.length = Q.length + c.length + Rt.length := by
    rw [ht]; simp; omega
  have hbpos : 0 < c.length + Rb.length := by
    have := List.length_pos.mpr hbne
    simpa using this
  have htpos : 0 < c.length + Rt.length := by
    have := List.length_pos.mpr htne
    simpa using this
  rw [relLoop]
  rw [if_pos (Or.inl (by omega))]
  simp only [skipElem_at base P c Rb hb hc hRb, skipElem_at targ Q c Rt ht hc hRt,
    slice_at base P c Rb hb, slice_at targ Q c Rt ht]
  simp only [bne_self_eq_false, Bool.false_eq_true, if_false]
  have e1 : (if P.length + c.length < base.length then P.length + c.length + 1
      else P.length + c.length) = P.length + c.length + min 1 Rb.length := by
    split <;> omega
  have e2 : (if Q.length + c.length < targ.length then Q.length + c.length + 1
      else Q.length + c.length) = Q.length + c.length + min 1 Rt.length := by
    split <;> omega
  rw [e1, e2]

theorem relLoop_exit (base targ : Str) (f b0 bi t0 ti : Nat)
    (h : ¬(bi < base.length ∨ ti < targ.length)) :
    relLoop base targ f b0 bi t0 ti = (b0, bi, t0, ti) := by
  cases f with
  | zero => rfl
  | succ f => rw [relLoop, if_neg h]

/-- One round of the loop of `Rel` on different elements (one of them empty
when its path is used up) leaves the loop. -/
theorem relLoop_differ (base targ P Q b t Rb Rt : Str) (hb : base = P ++ (b ++ Rb))
    (ht : targ = Q ++ (t ++ Rt)) (hbs : ∀ x ∈ b, (x != Separator) = true)
    (hts : ∀ x ∈ t, (x != Separator) = true)
    (hRb : Rb.headD Separator = Separator) (hRt : Rt.headD Separator = Separator)
    (hcond : b ≠ [] ∨ t ≠ []) (hne : b ≠ t) (f : Nat) :
    relLoop base targ (f + 1) P.length P.length Q.length Q.length
      = (P.length, P.length + b.length, Q.length, Q.length + t.length) := by
  have hbl : base.length = P.length + b.length + Rb.length := by
    rw [hb]; simp; omega
  have htl : targ.length = Q.length + t.length + Rt.length := by
    rw [ht]; simp; omega
  have hpos : 0 < b.length ∨ 0 < t.length := by
    rcases hcond with h | h
    · exact Or.inl (List.length_pos.mpr h)
    · exact Or.inr (List.length_pos.mpr h)
  rw [relLoop]
  rw [if_pos (by omega)]
  simp only [skipElem_at base P b Rb hb hbs hRb, skipElem_at targ Q t Rt ht hts hRt,
    slice_at base P b Rb hb, slice_at targ Q t Rt ht]
  have : (t != b) = true := by simpa using (Ne.symm hne)
  rw [if_pos this]

theorem relPath_split (l : List Str) :
    relPath l = l.headD [] ++ (if l.tail = [] then [] else Separator :: relPath l.tail) := by
  cases l with
  | nil => rfl
  | cons c l => simp [relPath_cons]

theorem relPath_tail_headD (l : List Str) :
    (if l = [] then ([] : Str) else Separator :: relPath l).headD Separator = Separator := by
  split <;> rfl

/-- The loop of `Rel` on two paths that share the elements `cs` and then
diverge (or end): it leaves `base[b0:bi]` and `targ[t0:ti]` at the first
elements after `cs`. -/
theorem relLoop_paths (base targ : Str) :
    ∀ (cs bs ts : List Str) (P Q : Str) (f : Nat),
      base = P ++ relPath (cs ++ bs) → targ = Q ++ relPath (cs ++ ts) →
      (∀ s ∈ cs ++ bs, isSeg s = true) → (∀ s ∈ cs ++ ts, isSeg s = true) →
      (bs = [] ∨ ts = [] ∨ bs.head? ≠ ts.head?) →
      (base.length - P.length) + (targ.length - Q.length) ≤ f →
      relLoop base targ f P.length P.length Q.length Q.length
        = (base.length - (relPath bs).length,
            base.length - (relPath bs).length + (bs.headD []).length,
            targ.length - (relPath ts).length,
            targ.length - (relPath ts).length + (ts.headD []).length) := by
  intro cs
  induction cs with
  | nil =>
    intro bs ts P Q f hb ht hbs hts hdiv hf
    simp only [List.nil_append] at hb ht hbs hts
    have hi : base.length - (relPath bs).length = P.length := by rw [hb]; simp
    have hj : targ.length - (relPath ts).length = Q.length := by rw [ht]; simp
    rw [hi, hj]
    by_cases hboth : bs = [] ∧ ts = []
    · obtain ⟨rfl, rfl⟩ := hboth
      simp only [List.headD_nil, List.length_nil, Nat.add_zero]
      apply relLoop_exit
      have h1 : base.length = P.length := by rw [hb]; simp [relPath]
      have h2 : targ.length = Q.length := by rw [ht]; simp [relPath]
      omega
    · have hbsep : ∀ x ∈ bs.headD [], (x != Separator) = true := by
        cases bs with
        | nil => simp
        | cons b bs1 => exact isSeg_sepfree (hbs b (by simp))
      have htsep : ∀ x ∈ ts.headD [], (x != Separator) = true := by
        cases ts with
        | nil => simp
        | cons t ts1 => exact isSeg_sepfree (hts t (by simp))
      have hne : bs.headD [] ≠ ts.headD [] := by
        cases bs with
        | nil =>
          cases ts with
          | nil => exact absurd ⟨rfl, rfl⟩ hboth
          | cons t ts1 => exact Ne.symm (isSeg_ne_nil (hts t (by simp)))
        | cons b bs1 =>
          cases ts with
          | nil => exact isSeg_ne_nil (hbs b (by simp))
          | cons t ts1 =>
            rcases hdiv with h | h | h
            · simp at h
            · simp at h
            · simpa using h
      have hcond : bs.headD [] ≠ [] ∨ ts.headD [] ≠ [] := by
        cases bs with
        | nil =>
          cases ts with
          | nil => exact absurd ⟨rfl, rfl⟩ hboth
          | cons t ts1 => exact Or.inr (isSeg_ne_nil (hts t (by simp)))
        | cons b bs1 => exact Or.inl (isSeg_ne_nil (hbs b (by simp)))
      rw [relPath_split bs] at hb
      rw [relPath_split ts] at ht
      have hbl : base.length ≥ P.length + (bs.headD []).length := by
        rw [hb]; simp only [List.length_append]; omega
      have htl : targ.length ≥ Q.length + (ts.headD []).length := by
        rw [ht]; simp only [List.length_append]; omega
      obtain ⟨f1, rfl⟩ : ∃ f1, f = f1 + 1 := by
        refine ⟨f - 1, ?_⟩
        have : 0 < (bs.headD []).length ∨ 0 < (ts.headD []).length := by
          rcases hcond with h | h
          · exact Or.inl (List.length_pos.mpr h)
          · exact Or.inr (List.length_pos.mpr h)
        omega
      exact relLoop_differ base targ P Q (bs.headD []) (ts.headD [])
        (if bs.tail = [] then [] else Separator :: relPath bs.tail)
        (if ts.tail = [] then [] else Separator :: relPath ts.tail) hb ht hbsep htsep
        (relPath_tail_headD _) (relPath_tail_headD _) hcond hne f1
  | cons c cs ih =>
    intro bs ts P Q f hb ht hbs hts hdiv hf
    have hce := hbs c (by simp)
    have hpos : 0 < c.length := List.length_pos.mpr (isSeg_ne_nil hce)
    rw [List.cons_append, relPath_cons] at hb ht
    have hbl : base.length ≥ P.length + c.length := by
      rw [hb]; simp only [List.length_append]; omega
    have htl : targ.length ≥ Q.length + c.length := by
      rw [ht]; simp only [List.length_append]; omega
    obtain ⟨f1, rfl⟩ : ∃ f1, f = f1 + 1 := ⟨f - 1, by omega⟩
    rw [relLoop_match base targ P Q c (if cs ++ bs = [] then [] else Separator :: relPath (cs ++ bs))
      (if cs ++ ts = [] then [] else Separator :: relPath (cs ++ ts)) hb ht (isSeg_sepfree hce)
      (relPath_tail_headD _) (relPath_tail_headD _)
      (by simp [isSeg_ne_nil hce]) (by simp [isSeg_ne_nil hce]) f1]
    have key : ∀ (s R : Str) (l : List Str),
        s = R ++ (c ++ (if l = [] then [] else Separator :: relPath l)) →
        ∃ R1 : Str, s = R1 ++ relPath l ∧ R1.length
          = R.length + c.length + min 1 (if l = [] then ([] : Str)
              else Separator :: relPath l).length := by
      intro s R l hs
      by_cases hl : l = []
      · refine ⟨R ++ c, ?_, ?_⟩
        · rw [hs, hl]; simp [relPath]
        · simp [hl]
      · refine ⟨R ++ c ++ [Separator], ?_, ?_⟩
        · rw [hs]; simp [hl]
        · simp only [hl, if_false, List.length_append, List.length_cons, List.length_nil]
          omega
    obtain ⟨P1, hb1, hP1⟩ := key base P _ hb
    obtain ⟨Q1, ht1, hQ1⟩ := key targ Q _ ht
    rw [← hP1, ← hQ1]
    exact ih bs ts P1 Q1 f1 hb1 ht1 (fun s hs => hbs s (by simp [hs]))
      (fun s hs => hts s (by simp [hs])) hdiv (by omega)

theorem skipElem_ge (s : Str) (i : Nat) : i ≤ skipElem s i := by
  unfold skipElem
  omega

/-- The loop of `Rel` never runs out of rounds: once the bound covers the
unread parts of the base and of the target, a larger bound gives the same
result. -/
theorem relLoop_fuel (base targ : Str) :
    ∀ (f b0 bi t0 ti : Nat), (base.length - bi) + (targ.length - ti) ≤ f →
      relLoop base targ f b0 bi t0 ti
        = relLoop base targ ((base.length - bi) + (targ.length - ti)) b0 bi t0 ti := by
  intro f
  induction f using Nat.strong_induction_on with
  | _ f ih =>
    intro b0 bi t0 ti hf
    by_cases hc : bi < base.length ∨ ti < targ.length
    · obtain ⟨f1, rfl⟩ : ∃ f1, f = f1 + 1 := ⟨f - 1, by omega⟩
      obtain ⟨g, hg⟩ : ∃ g, (base.length - bi) + (targ.length - ti) = g + 1 :=
        ⟨(base.length - bi) + (targ.length - ti) - 1, by omega⟩
      rw [hg, relLoop, relLoop, if_pos hc, if_pos hc]
      have hsb := skipElem_ge base bi
      have hst := skipElem_ge targ ti
      simp only []
      split
      · rfl
      · have key : ∀ bi2 ti2 : Nat, bi ≤ bi2 → ti ≤ ti2 →
            (bi < base.length → bi < bi2) → (ti < targ.length → ti < ti2) →
            relLoop base targ f1 bi2 bi2 ti2 ti2 = relLoop base targ g bi2 bi2 ti2 ti2 :=
          fun bi2 ti2 h1 h2 h3 h4 =>
            (ih f1 (by omega) bi2 bi2 ti2 ti2 (by
              rcases hc with h | h
              · have := h3 h; omega
              · have := h4 h; omega)).trans
              (ih g (by omega) bi2 bi2 ti2 ti2 (by
              rcases hc with h | h
              · have := h3 h; omega
              · have := h4 h; omega)).symm
        apply key
        · split <;> omega
        · split <;> omega
        · intro h; split <;> omega
        · intro h; split <;> omega
    · rw [relLoop_exit base targ f b0 bi t0 ti hc, relLoop_exit base targ _ b0 bi t0 ti hc]

/-- The bound `len(base) + len(targ) + 1` that `Rel` gives its loop is enough:
any larger bound gives the same result. -/
theorem Rel_rounds_suffice (base targ : Str) (f : Nat)
    (hf : base.length + targ.length + 1 ≤ f) :
    relLoop base targ f 0 0 0 0 = relLoop base targ (base.length + targ.length + 1) 0 0 0 0 :=
  (relLoop_fuel base targ f 0 0 0 0 (by omega)).trans
    (relLoop_fuel base targ (base.length + targ.length + 1) 0 0 0 0 (by omega)).symm

theorem relPath_eq_intercalate (l : List Str) : relPath l = [Separator].intercalate l := by
  induction l with
  | nil => rfl
  | cons a l ih =>
    cases l with
    | nil => simp [relPath, List.intercalate]
    | cons b l =>
      rw [relPath, ih]
      simp [List.intercalate, List.intersperse]

theorem relPath_append (xs ys : List Str) (hx : xs ≠ []) (hy : ys ≠ []) :
    relPath (xs ++ ys) = relPath xs ++ Separator :: relPath ys := by
  induction xs with
  | nil => exact absurd rfl hx
  | cons a xs ih =>
    cases xs with
    | nil =>
      rw [List.singleton_append, relPath_cons, if_neg hy]
      rfl
    | cons b xs =>
      rw [List.cons_append, relPath_cons, if_neg (by simp), ih (by simp), relPath_cons a,
        if_neg (by simp)]
      simp

theorem relPath_suffix (cs ts : List Str) : ∃ X, relPath (cs ++ ts) = X ++ relPath ts := by
  by_cases hc : cs = []
  · exact ⟨[], by simp [hc]⟩
  · by_cases ht : ts = []
    · exact ⟨relPath cs, by simp [ht, relPath]⟩
    · exact ⟨relPath cs ++ [Separator], by rw [relPath_append cs ts hc ht]; simp⟩

theorem relPath_length_pos (l : List Str) (hl : l ≠ []) (h : ∀ s ∈ l, isSeg s = true) :
    0 < (relPath l).length := by
  cases l with
  | nil => exact absurd rfl hl
  | cons a l =>
    have := List.length_pos.mpr (isSeg_ne_nil (h a (by simp)))
    rw [relPath_cons]
    simp only [List.length_append]
    omega

theorem relPath_inj (l1 l2 : List Str) (h1 : ∀ s ∈ l1, isSeg s = true)
    (h2 : ∀ s ∈ l2, isSeg s = true) (h : relPath l1 = relPath l2) : l1 = l2 := by
  have sepfree : ∀ l : List Str, (∀ s ∈ l, isSeg s = true) → ∀ s ∈ l, Separator ∉ s := by
    intro l hl s hs hmem
    have := isSeg_sepfree (hl s hs) Separator hmem
    simp at this
  by_cases e1 : l1 = []
  · by_cases e2 : l2 = []
    · rw [e1, e2]
    · have := relPath_length_pos l2 e2 h2
      rw [← h, e1] at this
      simp [relPath] at this
  · by_cases e2 : l2 = []
    · have := relPath_length_pos l1 e1 h1
      rw [h, e2] at this
      simp [relPath] at this
    · have a1 := List.splitOn_intercalate l1 Separator (sepfree l1 h1) e1
      have a2 := List.splitOn_intercalate l2 Separator (sepfree l2 h2) e2
      rw [← relPath_eq_intercalate] at a1 a2
      rw [← a1, ← a2, h]

theorem count_sep_relPath (l : List Str) (hl : l ≠ []) (h : ∀ s ∈ l, isSeg s = true) :
    (relPath l).count Separator = l.length - 1 := by
  induction l with
  | nil => exact absurd rfl hl
  | cons a l ih =>
    have ha : a.count Separator = 0 := by
      rw [List.count_eq_zero]
      intro hmem
      have := isSeg_sepfree (h a (by simp)) Separator hmem
      simp at this
    cases l with
    | nil => simpa [relPath] using ha
    | cons b l =>
      rw [relPath, List.count_append, ha, List.count_cons_self,
        ih (by simp) (fun s hs => h s (by simp [hs]))]
      simp

theorem relPath_dotdots (k : Nat) :
    relPath (List.replicate (k + 1) ['.', '.'])
      = ['.', '.'] ++ (List.replicate k [Separator, '.', '.']).flatten := by
  induction k with
  | zero => rfl
  | succ k ih =>
    rw [List.replicate_succ, relPath_cons, if_neg (by simp), ih]
    simp [List.replicate_succ]

theorem drop_suffix (S X : Str) (l : List Str) (h : S = X ++ relPath l) :
    S.drop (S.length - (relPath l).length) = relPath l := by
  subst h
  have hl : (X ++ relPath l).length - (relPath l).length = X.length := by
    simp only [List.length_append]
    omega
  rw [hl, List.drop_left]

theorem slice_suffix (S X : Str) (l : List Str) (h : S = X ++ relPath l) :
    slice S (S.length - (relPath l).length) S.length = relPath l := by
  unfold slice
  rw [List.take_length, drop_suffix S X l h]

theorem slice_suffix_head (S X : Str) (l : List Str) (h : S = X ++ relPath l) :
    slice S (S.length - (relPath l).length)
      (S.length - (relPath l).length + (l.headD []).length) = l.headD [] := by
  have h2 : S = X ++ (l.headD [] ++ (if l.tail = [] then [] else Separator :: relPath l.tail)) := by
    rw [h, ← relPath_split]
  have hl : S.length - (relPath l).length = X.length := by
    rw [h]
    simp only [List.length_append]
    omega
  rw [hl]
  exact slice_at _ _ _ _ h2

theorem suffix_length_le (S X : Str) (l : List Str) (h : S = X ++ relPath l) :
    (relPath l).length ≤ S.length := by
  rw [h]
  simp only [List.length_append]
  omega

theorem relPath_headD_ne_sep (l : List Str) (h : ∀ s ∈ l, isSeg s = true) :
    ((relPath l).headD ' ' == Separator) = false := by
  cases l with
  | nil => rfl
  | cons a l =>
    have ha := h a (by simp)
    rw [relPath_cons]
    cases a with
    | nil => exact absurd rfl (isSeg_ne_nil ha)
    | cons c a =>
      have := isSeg_sepfree ha c (by simp)
      simpa using this

/-- The loop of `Rel`, started as `Rel` starts it, on two paths with the same
start `pre` (nothing, or the separator of a rooted path) that share the elements
`cs` and then diverge (or end). -/
theorem relLoop_start (pre : Str) (hpre : pre = [] ∨ pre = [Separator]) (cs bs ts : List Str)
    (hbs : ∀ s ∈ cs ++ bs, isSeg s = true) (hts : ∀ s ∈ cs ++ ts, isSeg s = true)
    (hdiv : bs = [] ∨ ts = [] ∨ bs.head? ≠ ts.head?) :
    relLoop (pre ++ relPath (cs ++ bs)) (pre ++ relPath (cs ++ ts))
        ((pre ++ relPath (cs ++ bs)).length + (pre ++ relPath (cs ++ ts)).length + 1) 0 0 0 0
      = ((pre ++ relPath (cs ++ bs)).length - (relPath bs).length,
          (pre ++ relPath (cs ++ bs)).length - (relPath bs).length + (bs.headD []).length,
          (pre ++ relPath (cs ++ ts)).length - (relPath ts).length,
          (pre ++ relPath (cs ++ ts)).length - (relPath ts).length + (ts.headD []).length) := by
  rcases hpre with rfl | rfl
  · have h2 := relLoop_paths ([] ++ relPath (cs ++ bs)) ([] ++ relPath (cs ++ ts)) cs bs ts
      [] [] (([] ++ relPath (cs ++ bs)).length + ([] ++ relPath (cs ++ ts)).length + 1)
      rfl rfl hbs hts hdiv (by simp only [List.length_nil]; omega)
    simpa using h2
  · have h1 := relLoop_match ([Separator] ++ relPath (cs ++ bs))
      ([Separator] ++ relPath (cs ++ ts)) [] [] []
      ([Separator] ++ relPath (cs ++ bs)) ([Separator] ++ relPath (cs ++ ts)) rfl rfl
      (by simp) (by simp) (by simp) (by simp) (by simp)
      (([Separator] ++ relPath (cs ++ bs)).length + ([Separator] ++ relPath (cs ++ ts)).length)
    have h2 := relLoop_paths ([Separator] ++ relPath (cs ++ bs))
      ([Separator] ++ relPath (cs ++ ts)) cs bs ts [Separator] [Separator]
      (([Separator] ++ relPath (cs ++ bs)).length + ([Separator] ++ relPath (cs ++ ts)).length)
      rfl rfl hbs hts hdiv (by omega)
    have e1 : min 1 ([Separator] ++ relPath (cs ++ bs)).length = 1 := by simp
    have e2 : min 1 ([Separator] ++ relPath (cs ++ ts)).length = 1 := by simp
    simp only [List.length_nil, Nat.zero_add, e1, e2] at h1
    simp only [List.length_singleton] at h2
    rw [h1, h2]

/-- The function `Rel` on two paths whose cleaned forms differ, have the same
start `pre` (nothing, or the separator of a rooted path), share the elements
`cs` and then diverge (or end): an error when the first element left in the base
is `..`, and otherwise one `..` for every element left in the base, followed by
the elements left in the target. -/
theorem Rel_paths (basepath targpath pre : Str) (cs bs ts : List Str)
    (hpre : pre = [] ∨ pre = [Separator])
    (hb : Clean basepath
      = if pre = [] ∧ cs ++ bs = [] then ['.'] else pre ++ relPath (cs ++ bs))
    (ht : Clean targpath = pre ++ relPath (cs ++ ts))
    (hbs : ∀ s ∈ cs ++ bs, isSeg s = true ∧ s ≠ ['.'])
    (hts : ∀ s ∈ cs ++ ts, isSeg s = true)
    (hdiv : bs = [] ∨ ts = [] ∨ bs.head? ≠ ts.head?)
    (hdiff : Clean targpath ≠ Clean basepath) :
    Rel basepath targpath
      = if bs.head? = some ['.', '.'] then .error (relError basepath targpath)
        else .ok (relPath (List.replicate bs.length ['.', '.'] ++ ts)) := by
  have hbseg : ∀ s ∈ cs ++ bs, isSeg s = true := fun s hs => (hbs s hs).1
  have htseg : ∀ s ∈ cs ++ ts, isSeg s = true := hts
  have hdotseg : ∀ s ∈ [['.']], isSeg s = true := by
    intro s hs
    rw [List.mem_singleton.mp hs]
    decide
  -- a list of elements without `.` is not the path `.`
  have hnotdot : ∀ l : List Str, (∀ s ∈ l, isSeg s = true ∧ s ≠ ['.']) → relPath l ≠ ['.'] := by
    intro l hl he
    have : l = [['.']] := relPath_inj l [['.']] (fun s hs => (hl s hs).1) hdotseg he
    subst this
    exact (hl ['.'] (by simp)).2 rfl
  -- the base after `if base == "." { base = "" }`
  have hbase : (if (Clean basepath == ['.']) = true then [] else Clean basepath)
      = pre ++ relPath (cs ++ bs) := by
    rw [hb]
    by_cases hc : pre = [] ∧ cs ++ bs = []
    · rw [if_pos hc]
      simp [hc.1, hc.2, relPath]
    · rw [if_neg hc]
      have : pre ++ relPath (cs ++ bs) ≠ ['.'] := by
        rcases hpre with rfl | rfl
        · simpa using hnotdot _ hbs
        · simp [Separator]
      rw [if_neg (by simpa using this)]
  have hneq : (Clean targpath == Clean basepath) = false := by
    simpa using hdiff
  have hslash : ((decide ((pre ++ relPath (cs ++ bs)).length > 0)
        && (pre ++ relPath (cs ++ bs)).headD ' ' == Separator)
      != (decide ((pre ++ relPath (cs ++ ts)).length > 0)
        && (pre ++ relPath (cs ++ ts)).headD ' ' == Separator)) = false := by
    rcases hpre with rfl | rfl
    · simp only [List.nil_append, relPath_headD_ne_sep _ hbseg, relPath_headD_ne_sep _ htseg,
        Bool.and_false, bne_self_eq_false]
    · simp
  obtain ⟨Xb, hXb⟩ : ∃ X, pre ++ relPath (cs ++ bs) = X ++ relPath bs := by
    obtain ⟨X, hX⟩ := relPath_suffix cs bs
    exact ⟨pre ++ X, by rw [hX, List.append_assoc]⟩
  obtain ⟨Xt, hXt⟩ : ∃ X, pre ++ relPath (cs ++ ts) = X ++ relPath ts := by
    obtain ⟨X, hX⟩ := relPath_suffix cs ts
    exact ⟨pre ++ X, by rw [hX, List.append_assoc]⟩
  have hbl := suffix_length_le _ Xb bs hXb
  have htl := suffix_length_le _ Xt ts hXt
  unfold Rel
  simp only [hneq, Bool.false_eq_true, if_false]
  simp only [hbase, ht, hslash, Bool.false_eq_true, if_false]
  rw [relLoop_start pre hpre cs bs ts hbseg htseg hdiv]
  simp only [slice_suffix_head _ Xb bs hXb, slice_suffix _ Xb bs hXb, drop_suffix _ Xt ts hXt]
  cases bs with
  | nil =>
    have n1 : (relPath ([] : List Str)).length = 0 := rfl
    simp [n1]
  | cons b bs1 =>
    by_cases hdd : b = ['.', '.']
    · subst hdd
      simp
    · have hhead : (b == ['.', '.']) = false := by simpa using hdd
      have hbpos := relPath_length_pos (b :: bs1) (by simp)
        (fun s hs => hbseg s (by simp [hs]))
      have hcount := count_sep_relPath (b :: bs1) (by simp)
        (fun s hs => hbseg s (by simp [hs]))
      have n0 : ((pre ++ relPath (cs ++ b :: bs1)).length - (relPath (b :: bs1)).length
          != (pre ++ relPath (cs ++ b :: bs1)).length) = true := by
        simp only [bne_iff_ne, ne_eq]
        omega
      simp only [List.headD_cons, hhead, Bool.false_eq_true, if_false, n0, hcount, if_true,
        List.length_cons, Nat.add_sub_cancel, List.head?_cons, Option.some.injEq, hdd]
      cases ts with
      | nil =>
        have n1 : (relPath ([] : List Str)).length = 0 := rfl
        simp only [n1, Nat.sub_zero, bne_self_eq_false, Bool.false_eq_true, if_false,
          List.append_nil]
        rw [relPath_dotdots]
      | cons t ts1 =>
        have htpos := relPath_length_pos (t :: ts1) (by simp)
          (fun s hs => htseg s (by simp [hs]))
        have n1 : ((pre ++ relPath (cs ++ t :: ts1)).length - (relPath (t :: ts1)).length
            != (pre ++ relPath (cs ++ t :: ts1)).length) = true := by
          simp only [bne_iff_ne, ne_eq]
          omega
        simp only [n1, if_true]
        rw [relPath_append (List.replicate (bs1.length + 1) ['.', '.']) (t :: ts1) (by simp)
          (by simp), relPath_dotdots]
        simp

theorem isElem_seg_ne_dot {l : List Str} (h : ∀ s ∈ l, isElem s = true) :
    ∀ s ∈ l, isSeg s = true ∧ s ≠ ['.'] :=
  fun s hs => ⟨isElem_isSeg (h s hs), isElem_ne_dot (h s hs)⟩

/-- The function `Rel` on two paths with the same cleaned form. -/
theorem Rel_same (basepath targpath : Str) (h : Clean targpath = Clean basepath) :
    Rel basepath targpath = .ok ['.'] := by
  unfold Rel
  simp [h]

/-- The function `Rel` on two rooted paths whose cleaned forms share the
elements `cs` and then diverge (or end): one `..` for every element left in the
base, followed by the elements left in the target. -/
theorem Rel_rooted (basepath targpath : Str) (cs bs ts : List Str)
    (hb : Clean basepath = absPath (cs ++ bs)) (ht : Clean targpath = absPath (cs ++ ts))
    (hbs : ∀ s ∈ cs ++ bs, isElem s = true) (hts : ∀ s ∈ cs ++ ts, isElem s = true)
    (hdiv : bs = [] ∨ ts = [] ∨ bs.head? ≠ ts.head?) :
    Rel basepath targpath
      = .ok (if bs = [] ∧ ts = [] then ['.']
             else relPath (List.replicate bs.length ['.', '.'] ++ ts)) := by
  by_cases both : bs = [] ∧ ts = []
  · obtain ⟨rfl, rfl⟩ := both
    rw [Rel_same basepath targpath (by rw [hb, ht])]
    simp
  · rw [if_neg both]
    have hne : ts ≠ bs := by
      intro h
      subst h
      rcases hdiv with h | h | h
      · exact both ⟨h, h⟩
      · exact both ⟨h, h⟩
      · exact h rfl
    have hdiff : Clean targpath ≠ Clean basepath := by
      rw [hb, ht]
      intro he
      have he1 : relPath (cs ++ ts) = relPath (cs ++ bs) := by
        simpa [absPath] using he
      exact hne (List.append_cancel_left (relPath_inj _ _
        (fun s hs => isElem_isSeg (hts s hs)) (fun s hs => isElem_isSeg (hbs s hs)) he1))
    rw [Rel_paths basepath targpath [Separator] cs bs ts (Or.inr rfl) (by
        rw [hb, if_neg (by simp)]
        rfl) ht (isElem_seg_ne_dot hbs) (fun s hs => isElem_isSeg (hts s hs)) hdiv hdiff]
    rw [if_neg]
    cases bs with
    | nil => simp
    | cons b bs1 =>
      have := isElem_ne_dotdot (hbs b (by simp))
      simpa using this
/-! ## `filepath.Clean` on an arbitrary rooted path -/

/-- Where the backtracking loop of `Clean` stops: at the first index, going
down, that is a separator or has reached `dotdot`. -/
theorem backtrackTo_stop (out : Str) (d m : Nat) (hstop : m ≤ d ∨ out.getD m ' ' = Separator) :
    ∀ k : Nat, (∀ i, m < i → i ≤ m + k → d < i ∧ IsPathSeparator (out.getD i ' ') = false) →
      backtrackTo out d (m + k) = m := by
  intro k
  induction k with
  | zero =>
    intro _
    cases m with
    | zero => rfl
    | succ w =>
      rw [Nat.add_zero, backtrackTo]
      rcases hstop with h | h
      · rw [if_neg]
        simp only [Bool.and_eq_true, decide_eq_true_eq, not_and]
        intro h1
        omega
      · rw [if_neg]
        rw [h]
        simp [IsPathSeparator]
  | succ k ih =>
    intro h
    have hk := h (m + k + 1) (by omega) (by omega)
    rw [← Nat.add_assoc, backtrackTo, if_pos (by rw [hk.2]; simpa using hk.1)]
    exact ih (fun i h1 h2 => h i h1 (by omega))

theorem absPath_length_ge (segs : List Str) (hne : segs ≠ [])
    (h : ∀ s ∈ segs, isElem s = true) : 2 ≤ (absPath segs).length := by
  have := relPath_length_pos segs hne (fun s hs => isElem_isSeg (h s hs))
  simp only [absPath, List.length_cons]
  omega

theorem absPath_snoc (segs : List Str) (e : Str) (h : ∀ s ∈ segs, isElem s = true) :
    (if (absPath segs).length != 1 then absPath segs ++ [Separator] else absPath segs) ++ e
      = absPath (segs ++ [e]) := by
  by_cases hs : segs = []
  · subst hs
    simp [absPath, relPath]
  · have := absPath_length_ge segs hs h
    have hne : ((absPath segs).length != 1) = true := by
      simp only [bne_iff_ne, ne_eq]
      omega
    rw [if_pos hne]
    simp [absPath, relPath_append segs [e] hs (by simp), relPath]

theorem getD_after_sep (A L : Str) (hL : ∀ c ∈ L, (!IsPathSeparator c) = true) (i : Nat)
    (h1 : A.length < i) (h2 : i ≤ A.length + L.length) :
    IsPathSeparator ((A ++ Separator :: L).getD i ' ') = false := by
  obtain ⟨j, rfl⟩ : ∃ j, i = A.length + (j + 1) := ⟨i - A.length - 1, by omega⟩
  have hj : j < L.length := by omega
  have : (A ++ Separator :: L).getD (A.length + (j + 1)) ' ' = L[j] := by
    rw [List.getD_eq_getElem?_getD, List.getElem?_append_right (by omega)]
    simp [hj]
  rw [this]
  simpa using hL L[j] (List.getElem_mem _)

theorem getD_at_sep (A L : Str) : (A ++ Separator :: L).getD A.length ' ' = Separator := by
  rw [List.getD_eq_getElem?_getD, List.getElem?_append_right (by omega)]
  simp

/-- Backtracking over the last element of a rooted path. -/
theorem backtrack_absPath (init : List Str) (last : Str)
    (h : ∀ s ∈ init ++ [last], isElem s = true) :
    (absPath (init ++ [last])).take
        (backtrackTo (absPath (init ++ [last])) 1 ((absPath (init ++ [last])).length - 1))
      = absPath init := by
  have hl : isElem last = true := h last (by simp)
  have hlpos : 0 < last.length := List.length_pos.mpr (isElem_ne_nil hl)
  by_cases hi : init = []
  · subst hi
    have e : absPath ([] ++ [last]) = [] ++ Separator :: last := by simp [absPath, relPath]
    rw [e]
    have hbt := backtrackTo_stop ([] ++ Separator :: last) 1 1 (Or.inl (le_refl _))
      (last.length - 1) (fun i h1 h2 =>
        ⟨h1, getD_after_sep [] last (isElem_no_sep hl) i (by simp; omega) (by simp; omega)⟩)
    have e2 : ([] ++ Separator :: last).length - 1 = 1 + (last.length - 1) := by
      simp; omega
    rw [e2, hbt]
    simp [absPath, relPath]
  · have e : absPath (init ++ [last]) = absPath init ++ Separator :: last := by
      simp [absPath, relPath_append init [last] hi (by simp), relPath]
    rw [e]
    have hge := absPath_length_ge init hi (fun s hs => h s (by simp [hs]))
    have hbt := backtrackTo_stop (absPath init ++ Separator :: last) 1 (absPath init).length
      (Or.inr (getD_at_sep _ _)) last.length (fun i h1 h2 =>
        ⟨by omega, getD_after_sep (absPath init) last (isElem_no_sep hl) i h1 h2⟩)
    have e2 : (absPath init ++ Separator :: last).length - 1
        = (absPath init).length + last.length := by
      simp
    rw [e2, hbt, List.take_left]

theorem mem_takeWhile_pos (p : Char → Bool) (l : Str) :
    ∀ x ∈ l.takeWhile p, p x = true := by
  induction l with
  | nil => simp
  | cons a l ih =>
    intro x hx
    rw [List.takeWhile_cons] at hx
    by_cases ha : p a = true
    · rw [if_pos ha] at hx
      rcases List.mem_cons.mp hx with rfl | hx
      · exact ha
      · exact ih x hx
    · rw [if_neg ha] at hx
      simp at hx

theorem takeWhile_nil_head (l : Str)
    (h : l.takeWhile (fun x => !IsPathSeparator x) = []) :
    (l.isEmpty || IsPathSeparator (l.headD ' ')) = true := by
  cases l with
  | nil => rfl
  | cons a l =>
    rw [List.takeWhile_cons] at h
    by_cases ha : IsPathSeparator a = true
    · simp [ha]
    · simp [ha] at h

/-- The element that the loop of `Clean` copies in its default case is a
proper element. -/
theorem isElem_takeWhile (c : Char) (r : Str) (h1 : ¬IsPathSeparator c = true)
    (h2 : ¬(c == '.' && (r.isEmpty || IsPathSeparator (r.headD ' '))) = true)
    (h3 : ¬(c == '.' && r.headD ' ' == '.'
      && (r.tail.isEmpty || IsPathSeparator (r.tail.headD ' '))) = true) :
    isElem ((c :: r).takeWhile (fun x => !IsPathSeparator x)) = true := by
  have hc : (!IsPathSeparator c) = true := by simpa using h1
  rw [List.takeWhile_cons, if_pos hc]
  have hall : ∀ x ∈ c :: r.takeWhile (fun x => !IsPathSeparator x),
      (!IsPathSeparator x) = true := by
    intro x hx
    rcases List.mem_cons.mp hx with rfl | hx
    · exact hc
    · exact mem_takeWhile_pos _ _ x hx
  have hdot : c :: r.takeWhile (fun x => !IsPathSeparator x) ≠ ['.'] := by
    intro he
    have hc1 : c = '.' := (List.cons.inj he).1
    have := takeWhile_nil_head r (List.cons.inj he).2
    exact h2 (by rw [hc1, this]; rfl)
  have hdotdot : c :: r.takeWhile (fun x => !IsPathSeparator x) ≠ ['.', '.'] := by
    intro he
    have hc1 : c = '.' := (List.cons.inj he).1
    have ht := (List.cons.inj he).2
    cases r with
    | nil => simp at ht
    | cons a r =>
      rw [List.takeWhile_cons] at ht
      by_cases ha : (!IsPathSeparator a) = true
      · rw [if_pos ha] at ht
        have ha1 : a = '.' := (List.cons.inj ht).1
        have := takeWhile_nil_head r (List.cons.inj ht).2
        exact h3 (by simp only [List.headD_cons, List.tail_cons]; rw [hc1, ha1, this]; rfl)
      · rw [if_neg ha] at ht
        simp at ht
  simp only [isElem, Bool.and_eq_true, List.all_eq_true, bne_iff_ne, ne_eq]
  exact ⟨⟨⟨by simp, hall⟩, hdot⟩, hdotdot⟩

/-- The loop of `Clean` on a rooted path keeps the buffer a rooted path made of
proper elements. -/
theorem cleanLoop_rooted_shape :
    ∀ (f : Nat) (rest : Str) (segs : List Str), (∀ s ∈ segs, isElem s = true) →
      ∃ segs1 : List Str, (∀ s ∈ segs1, isElem s = true)
        ∧ cleanLoop true f rest (absPath segs) 1 = absPath segs1 := by
  intro f
  induction f with
  | zero =>
    intro rest segs h
    cases rest <;> exact ⟨segs, h, rfl⟩
  | succ f ih =>
    intro rest segs h
    cases rest with
    | nil => exact ⟨segs, h, rfl⟩
    | cons c r =>
      rw [cleanLoop]
      by_cases h1 : IsPathSeparator c = true
      · rw [if_pos h1]
        exact ih r segs h
      rw [if_neg h1]
      by_cases h2 : (c == '.' && (r.isEmpty || IsPathSeparator (r.headD ' '))) = true
      · rw [if_pos h2]
        exact ih r segs h
      rw [if_neg h2]
      by_cases h3 : (c == '.' && r.headD ' ' == '.'
          && (r.tail.isEmpty || IsPathSeparator (r.tail.headD ' '))) = true
      · rw [if_pos h3]
        by_cases h4 : (absPath segs).length > 1
        · rw [if_pos h4]
          have hne : segs ≠ [] := by
            intro hs
            subst hs
            simp [absPath, relPath] at h4
          obtain ⟨init, last, rfl⟩ : ∃ init last, segs = init ++ [last] :=
            ⟨segs.dropLast, segs.getLast hne, (List.dropLast_append_getLast hne).symm⟩
          rw [backtrack_absPath init last h]
          exact ih r.tail init (fun s hs => h s (by simp [hs]))
        · rw [if_neg h4, if_neg (by simp)]
          exact ih r.tail segs h
      rw [if_neg h3]
      have he := isElem_takeWhile c r h1 h2 h3
      have hsn := absPath_snoc segs ((c :: r).takeWhile (fun x => !IsPathSeparator x)) h
      simp only [Bool.true_and, Bool.not_true, Bool.false_and, Bool.or_false]
      rw [hsn]
      exact ih _ (segs ++ [(c :: r).takeWhile (fun x => !IsPathSeparator x)]) (by
        intro s hs
        rcases List.mem_append.mp hs with hs | hs
        · exact h s hs
        · rw [List.mem_singleton.mp hs]
          exact he)

/-- The function `Clean` turns every rooted path into a rooted path made of
proper elements. -/
theorem Clean_rooted_shape (path : Str) (hr : isRooted path = true) :
    ∃ segs : List Str, (∀ s ∈ segs, isElem s = true) ∧ Clean path = absPath segs := by
  cases path with
  | nil => simp [isRooted] at hr
  | cons a path =>
    have ha : a = Separator := by simpa [isRooted] using hr
    subst ha
    obtain ⟨segs, hsegs, h⟩ := cleanLoop_rooted_shape (Separator :: path).length path []
      (by simp)
    refine ⟨segs, hsegs, ?_⟩
    have hlen : ((absPath segs).length == 0) = false := by simp [absPath]
    simp only [Clean, List.isEmpty_cons, List.headD_cons, List.tail_cons, IsPathSeparator,
      beq_self_eq_true, if_true, Bool.false_eq_true, if_false]
    have e : absPath [] = [Separator] := rfl
    rw [e] at h
    rw [h, hlen]
    simp

/-! ## `filepath.Clean` on an arbitrary relative path -/

theorem getD_in_seg (L : Str) (hL : ∀ c ∈ L, (!IsPathSeparator c) = true) (i : Nat)
    (h : i < L.length) : IsPathSeparator (L.getD i ' ') = false := by
  have : L.getD i ' ' = L[i] := by
    rw [List.getD_eq_getElem?_getD]
    simp [h]
  rw [this]
  simpa using hL L[i] (List.getElem_mem _)

theorem relPath_length_le_append (l l1 : List Str) :
    (relPath l).length ≤ (relPath (l ++ l1)).length := by
  by_cases h : l = []
  · subst h
    simp [relPath]
  · by_cases h1 : l1 = []
    · subst h1
      simp
    · rw [relPath_append l l1 h h1]
      simp only [List.length_append, List.length_cons]
      omega

theorem relPath_length_lt_append (l l1 : List Str) (h1 : l1 ≠ [])
    (hl1 : ∀ s ∈ l1, isSeg s = true) :
    (relPath l).length < (relPath (l ++ l1)).length := by
  have hpos := relPath_length_pos l1 h1 hl1
  by_cases h : l = []
  · subst h
    simpa [relPath] using hpos
  · rw [relPath_append l l1 h h1]
    simp only [List.length_append, List.length_cons]
    omega

/-- Appending an element to a relative path in the buffer of `Clean`. -/
theorem relPath_snoc (l : List Str) (e : Str) (hl : ∀ s ∈ l, isSeg s = true) :
    (if (relPath l).length != 0 then relPath l ++ [Separator] else relPath l) ++ e
      = relPath (l ++ [e]) := by
  by_cases h : l = []
  · subst h
    simp [relPath]
  · have hpos := relPath_length_pos l h hl
    have hne : ((relPath l).length != 0) = true := by
      simp only [bne_iff_ne, ne_eq]
      omega
    rw [if_pos hne, relPath_append l [e] h (by simp)]
    simp [relPath]

/-- Backtracking over the last element of a relative path. -/
theorem backtrack_relPath (l : List Str) (last : Str) (d : Nat)
    (hl : ∀ s ∈ l, isSeg s = true) (hlast : isSeg last = true)
    (hd : d ≤ (relPath l).length) :
    (relPath (l ++ [last])).take
        (backtrackTo (relPath (l ++ [last])) d ((relPath (l ++ [last])).length - 1))
      = relPath l := by
  have hsep : ∀ c ∈ last, (!IsPathSeparator c) = true := by
    intro c hc
    have := isSeg_sepfree hlast c hc
    simpa [IsPathSeparator] using this
  have hlpos : 0 < last.length := List.length_pos.mpr (isSeg_ne_nil hlast)
  by_cases hi : l = []
  · subst hi
    have hd0 : d = 0 := by simpa [relPath] using hd
    subst hd0
    have e : relPath ([] ++ [last]) = last := by simp [relPath]
    rw [e]
    have hbt := backtrackTo_stop last 0 0 (Or.inl (le_refl _)) (last.length - 1)
      (fun i h1 h2 => ⟨h1, getD_in_seg last hsep i (by omega)⟩)
    rw [Nat.zero_add] at hbt
    rw [hbt]
    simp [relPath]
  · have e : relPath (l ++ [last]) = relPath l ++ Separator :: last := by
      rw [relPath_append l [last] hi (by simp)]
      simp [relPath]
    rw [e]
    have hbt := backtrackTo_stop (relPath l ++ Separator :: last) d (relPath l).length
      (Or.inr (getD_at_sep _ _)) last.length (fun i h1 h2 =>
        ⟨by omega, getD_after_sep (relPath l) last hsep i h1 h2⟩)
    have e2 : (relPath l ++ Separator :: last).length - 1
        = (relPath l).length + last.length := by
      simp
    rw [e2, hbt, List.take_left]

theorem dots_isSeg (k : Nat) : ∀ s ∈ List.replicate k ['.', '.'], isSeg s = true := by
  intro s hs
  rw [(List.mem_replicate.mp hs).2]
  decide

theorem dots_elems_isSeg (k : Nat) (segs : List Str) (h : ∀ s ∈ segs, isElem s = true) :
    ∀ s ∈ List.replicate k ['.', '.'] ++ segs, isSeg s = true ∧ s ≠ ['.'] := by
  intro s hs
  rcases List.mem_append.mp hs with hs | hs
  · rw [(List.mem_replicate.mp hs).2]
    exact ⟨by decide, by decide⟩
  · exact ⟨isElem_isSeg (h s hs), isElem_ne_dot (h s hs)⟩

/-- The loop of `Clean` on a relative path keeps the buffer a relative path
made of some `..` elements followed by proper elements, with `dotdot` at the
end of the `..` elements. -/
theorem cleanLoop_relative_shape :
    ∀ (f : Nat) (rest : Str) (k : Nat) (segs : List Str), (∀ s ∈ segs, isElem s = true) →
      ∃ l : List Str, (∀ s ∈ l, isSeg s = true ∧ s ≠ ['.'])
        ∧ cleanLoop false f rest (relPath (List.replicate k ['.', '.'] ++ segs))
            (relPath (List.replicate k ['.', '.'])).length = relPath l := by
  intro f
  induction f with
  | zero =>
    intro rest k segs h
    cases rest <;> exact ⟨_, dots_elems_isSeg k segs h, rfl⟩
  | succ f ih =>
    intro rest k segs h
    have hall := dots_elems_isSeg k segs h
    have hseg : ∀ s ∈ List.replicate k ['.', '.'] ++ segs, isSeg s = true :=
      fun s hs => (hall s hs).1
    cases rest with
    | nil => exact ⟨_, hall, rfl⟩
    | cons c r =>
      rw [cleanLoop]
      by_cases h1 : IsPathSeparator c = true
      · rw [if_pos h1]
        exact ih r k segs h
      rw [if_neg h1]
      by_cases h2 : (c == '.' && (r.isEmpty || IsPathSeparator (r.headD ' '))) = true
      · rw [if_pos h2]
        exact ih r k segs h
      rw [if_neg h2]
      by_cases h3 : (c == '.' && r.headD ' ' == '.'
          && (r.tail.isEmpty || IsPathSeparator (r.tail.headD ' '))) = true
      · rw [if_pos h3]
        by_cases h4 : (relPath (List.replicate k ['.', '.'] ++ segs)).length
            > (relPath (List.replicate k ['.', '.'])).length
        · rw [if_pos h4]
          have hne : segs ≠ [] := by
            intro hs
            subst hs
            simp at h4
          obtain ⟨init, last, rfl⟩ : ∃ init last, segs = init ++ [last] :=
            ⟨segs.dropLast, segs.getLast hne, (List.dropLast_append_getLast hne).symm⟩
          have hbt := backtrack_relPath (List.replicate k ['.', '.'] ++ init) last
            (relPath (List.replicate k ['.', '.'])).length
            (fun s hs => hseg s (by
              rcases List.mem_append.mp hs with hs | hs
              · exact List.mem_append.mpr (Or.inl hs)
              · exact List.mem_append.mpr (Or.inr (List.mem_append.mpr (Or.inl hs)))))
            (isElem_isSeg (h last (by simp)))
            (relPath_length_le_append _ _)
          rw [List.append_assoc] at hbt
          rw [hbt]
          exact ih r.tail k init (fun s hs => h s (by simp [hs]))
        · rw [if_neg h4, if_pos (by rfl)]
          have hs : segs = [] := by
            by_contra hne
            exact h4 (relPath_length_lt_append _ segs hne
              (fun s hs => isElem_isSeg (h s hs)))
          subst hs
          simp only [List.append_nil]
          have hsn := relPath_snoc (List.replicate k ['.', '.']) ['.', '.'] (dots_isSeg k)
          have hcond : (decide ((relPath (List.replicate k ['.', '.'])).length > 0))
              = ((relPath (List.replicate k ['.', '.'])).length != 0) := by
            by_cases hz : (relPath (List.replicate k ['.', '.'])).length = 0
            · simp [hz]
            · have : (relPath (List.replicate k ['.', '.'])).length > 0 := by omega
              simp [hz, this]
          have hrep : List.replicate k ['.', '.'] ++ [['.', '.']]
              = List.replicate (k + 1) ['.', '.'] := by
            rw [List.replicate_succ']
          rw [hrep] at hsn
          have hout : (if (relPath (List.replicate k ['.', '.'])).length > 0
              then relPath (List.replicate k ['.', '.']) ++ [Separator]
              else relPath (List.replicate k ['.', '.'])) ++ ['.', '.']
              = relPath (List.replicate (k + 1) ['.', '.']) := by
            rw [← hsn]
            by_cases hz : (relPath (List.replicate k ['.', '.'])).length = 0
            · simp [hz]
            · have : (relPath (List.replicate k ['.', '.'])).length > 0 := by omega
              simp [hz, this]
          simp only [hout]
          have := ih r.tail (k + 1) [] (by simp)
          simpa using this
      rw [if_neg h3]
      have he := isElem_takeWhile c r h1 h2 h3
      have hsn := relPath_snoc (List.replicate k ['.', '.'] ++ segs)
        ((c :: r).takeWhile (fun x => !IsPathSeparator x)) hseg
      simp only [Bool.false_and, Bool.not_false, Bool.true_and, Bool.false_or]
      rw [hsn, List.append_assoc]
      exact ih _ k (segs ++ [(c :: r).takeWhile (fun x => !IsPathSeparator x)]) (by
        intro s hs
        rcases List.mem_append.mp hs with hs | hs
        · exact h s hs
        · rw [List.mem_singleton.mp hs]
          exact he)

/-! ## The elements of a path -/

theorem splitOn_relPath (l : List Str) (hl : l ≠ [])
    (h : ∀ s ∈ l, ∀ c ∈ s, (c != Separator) = true) :
    (relPath l).splitOn Separator = l := by
  rw [relPath_eq_intercalate, List.splitOn_intercalate l Separator (by
    intro s hs hmem
    have := h s hs Separator hmem
    simp at this) hl]

theorem filter_elements (l : List Str) (h : ∀ s ∈ l, isSeg s = true ∧ s ≠ ['.']) :
    l.filter (fun e => !e.isEmpty && e != ['.']) = l := by
  rw [List.filter_eq_self]
  intro s hs
  have h1 := isSeg_ne_nil (h s hs).1
  have h2 := (h s hs).2
  cases s with
  | nil => exact absurd rfl h1
  | cons a s => simpa using h2

/-- The elements of a path whose cleaned form is `/a/b/c` are `a`, `b`, `c`. -/
theorem elements_of_absPath (path : Str) (segs : List Str) (hsegs : ∀ s ∈ segs, isElem s = true)
    (h : Clean path = absPath segs) : elements path = segs := by
  unfold elements
  rw [h]
  have hfilter := filter_elements segs (isElem_seg_ne_dot hsegs)
  by_cases hs : segs = []
  · subst hs
    rfl
  · have e : absPath segs = relPath ([] :: segs) := by
      rw [relPath_cons, if_neg hs]
      rfl
    rw [e, splitOn_relPath ([] :: segs) (by simp) (by
      intro l hl
      rcases List.mem_cons.mp hl with rfl | hl
      · simp
      · exact isElem_sepfree (hsegs l hl))]
    simpa using hfilter

/-- The elements of a relative path whose cleaned form is `a/b/c` are `a`, `b`,
`c`; the cleaned form `.` has no elements. -/
theorem elements_of_relPath (path : Str) (l : List Str)
    (hl : ∀ s ∈ l, isSeg s = true ∧ s ≠ ['.'])
    (h : Clean path = if l = [] then ['.'] else relPath l) : elements path = l := by
  unfold elements
  rw [h]
  by_cases hs : l = []
  · subst hs
    rfl
  · rw [if_neg hs, splitOn_relPath l hs (fun s hs => isSeg_sepfree (hl s hs).1)]
    exact filter_elements l hl

/-- The function `Clean` turns every relative path into `.` or a relative path
made of segments other than `.`. -/
theorem Clean_relative_shape (path : Str) (hr : isRooted path = false) :
    ∃ l : List Str, (∀ s ∈ l, isSeg s = true ∧ s ≠ ['.'])
      ∧ Clean path = if l = [] then ['.'] else relPath l := by
  cases path with
  | nil => exact ⟨[], by simp, rfl⟩
  | cons a path =>
    have ha : IsPathSeparator a = false := by
      simpa [isRooted, IsPathSeparator] using hr
    obtain ⟨l, hl, h⟩ := cleanLoop_relative_shape (a :: path).length (a :: path) 0 [] (by simp)
    refine ⟨l, hl, ?_⟩
    have e : relPath (List.replicate 0 ['.', '.'] ++ []) = [] := rfl
    have e0 : (relPath (List.replicate 0 ['.', '.'])).length = 0 := rfl
    rw [e, e0] at h
    simp only [Clean, List.isEmpty_cons, List.headD_cons, ha, Bool.false_eq_true, if_false]
    rw [h]
    by_cases hs : l = []
    · subst hs
      rfl
    · have := relPath_length_pos l hs (fun s hs => (hl s hs).1)
      rw [if_neg hs, if_neg]
      simp only [beq_iff_eq]
      omega

/-- Two lists of elements split into a common initial part and two rests
that are empty or start differently. -/
theorem common_decomp (B T : List Str) :
    ∃ cs bs ts, B = cs ++ bs ∧ T = cs ++ ts ∧ (bs = [] ∨ ts = [] ∨ bs.head? ≠ ts.head?) := by
  induction B generalizing T with
  | nil => exact ⟨[], [], T, rfl, rfl, Or.inl rfl⟩
  | cons b B ih =>
    cases T with
    | nil => exact ⟨[], b :: B, [], rfl, rfl, Or.inr (Or.inl rfl)⟩
    | cons t T =>
      by_cases hbt : b = t
      · subst hbt
        obtain ⟨cs, bs, ts, h1, h2, h3⟩ := ih T
        exact ⟨b :: cs, bs, ts, by rw [h1]; rfl, by rw [h2]; rfl, h3⟩
      · exact ⟨[], b :: B, t :: T, rfl, rfl, Or.inr (Or.inr (by simpa using hbt))⟩

theorem getRelativePath_eq (ev : Event) (s : Syncer) :
    getRelativePath ev s = Rel s.HostPath ev.Name := by
  unfold getRelativePath
  cases Rel s.HostPath ev.Name <;> rfl

/-- The function `getRelativePath` on two rooted paths: it never fails, and
returns one `..` for every element of the host root that the event path does
not share, followed by the elements of the event path that the host root does
not share. -/
theorem getRelativePath_rooted (ev : Event) (s : Syncer)
    (hroot : isRooted s.HostPath = true) (hp : isRooted ev.Name = true) :
    ∃ cs bs ts : List Str, elements s.HostPath = cs ++ bs ∧ elements ev.Name = cs ++ ts
      ∧ (∀ e ∈ cs ++ bs, isElem e = true) ∧ (∀ e ∈ cs ++ ts, isElem e = true)
      ∧ (bs = [] ∨ ts = [] ∨ bs.head? ≠ ts.head?)
      ∧ getRelativePath ev s
          = .ok (if bs = [] ∧ ts = [] then ['.']
                 else relPath (List.replicate bs.length ['.', '.'] ++ ts)) := by
  obtain ⟨B, hB, hcb⟩ := Clean_rooted_shape s.HostPath hroot
  obtain ⟨T, hT, hct⟩ := Clean_rooted_shape ev.Name hp
  obtain ⟨cs, bs, ts, h1, h2, h3⟩ := common_decomp B T
  subst h1 h2
  exact ⟨cs, bs, ts, elements_of_absPath _ _ hB hcb, elements_of_absPath _ _ hT hct, hB, hT, h3,
    by rw [getRelativePath_eq]; exact Rel_rooted _ _ cs bs ts hcb hct hB hT h3⟩

theorem relPath_head_ne_sep (ts : List Str) (hne : ts ≠ [])
    (h : ∀ e ∈ ts, isElem e = true) : (relPath ts).head? ≠ some Separator := by
  cases ts with
  | nil => exact absurd rfl hne
  | cons t ts =>
    have ht := h t (by simp)
    rw [relPath_cons]
    cases t with
    | nil => simp [isElem] at ht
    | cons c t =>
      have := isElem_sepfree ht c (by simp)
      simp only [List.cons_append, List.head?_cons, ne_eq, Option.some.injEq]
      simpa using this


/-! ## `getRelativePath` on arbitrary paths -/

/-- A relative path that goes up at least once has `..` as its first segment. -/
theorem splitOn_dotdots_head (k : Nat) (ts : List Str) (hts : ∀ s ∈ ts, isSeg s = true) :
    ((relPath (List.replicate (k + 1) ['.', '.'] ++ ts)).splitOn Separator).head?
      = some ['.', '.'] := by
  rw [splitOn_relPath _ (by simp [List.replicate_succ]) (by
    intro e he
    rcases List.mem_append.mp he with he | he
    · rw [(List.mem_replicate.mp he).2]
      simp [Separator]
    · exact isSeg_sepfree (hts e he))]
  simp [List.replicate_succ]

/-- The function `getRelativePath` on two relative paths: the elements of the
two cleaned paths split into a common initial part and two rests; it fails when
the rest of the host root starts with `..`, and otherwise goes up once for every
element of that rest and then down the rest of the event path. -/
theorem getRelativePath_relative (ev : Event) (s : Syncer)
    (hroot : isRooted s.HostPath = false) (hp : isRooted ev.Name = false) :
    ∃ cs bs ts : List Str, elements s.HostPath = cs ++ bs ∧ elements ev.Name = cs ++ ts
      ∧ (∀ e ∈ cs ++ ts, isSeg e = true)
      ∧ (bs = [] ∨ ts = [] ∨ bs.head? ≠ ts.head?)
      ∧ (bs.head? = some ['.', '.'] →
          getRelativePath ev s = .error (relError s.HostPath ev.Name))
      ∧ (bs.head? ≠ some ['.', '.'] → ∃ r, getRelativePath ev s = .ok r
          ∧ (bs = [] → ts = [] → r = ['.'])
          ∧ (bs ≠ [] → (r.splitOn Separator).head? = some ['.', '.'])
          ∧ (¬(bs = [] ∧ ts = []) → elements ev.Name ≠ [] →
              r = relPath (List.replicate bs.length ['.', '.'] ++ ts))) := by
  obtain ⟨B, hB, hcb⟩ := Clean_relative_shape s.HostPath hroot
  obtain ⟨T, hT, hct⟩ := Clean_relative_shape ev.Name hp
  have heB := elements_of_relPath _ _ hB hcb
  have heT := elements_of_relPath _ _ hT hct
  obtain ⟨cs, bs, ts, h1, h2, hdiv⟩ := common_decomp B T
  subst h1 h2
  have hBseg : ∀ e ∈ cs ++ bs, isSeg e = true := fun e he => (hB e he).1
  have hTseg : ∀ e ∈ cs ++ ts, isSeg e = true := fun e he => (hT e he).1
  refine ⟨cs, bs, ts, heB, heT, hTseg, hdiv, ?_⟩
  rw [getRelativePath_eq]
  have hdotseg : ∀ e ∈ [['.']], isSeg e = true := by
    intro e he
    rw [List.mem_singleton.mp he]
    decide
  have hnotdot : ∀ l : List Str, (∀ e ∈ l, isSeg e = true ∧ e ≠ ['.']) → relPath l ≠ ['.'] := by
    intro l hl he
    have : l = [['.']] := relPath_inj l [['.']] (fun e h => (hl e h).1) hdotseg he
    subst this
    exact (hl ['.'] (by simp)).2 rfl
  have hb1 : Clean s.HostPath
      = if ([] : Str) = [] ∧ cs ++ bs = [] then ['.'] else [] ++ relPath (cs ++ bs) := by
    rw [hcb]
    simp
  by_cases hsame : Clean ev.Name = Clean s.HostPath
  · -- the two paths clean to the same path
    have hBT : cs ++ ts = cs ++ bs := by
      rw [hct, hcb] at hsame
      by_cases hb0 : cs ++ bs = [] <;> by_cases ht0 : cs ++ ts = []
      · rw [hb0, ht0]
      · rw [if_pos hb0, if_neg ht0] at hsame
        exact absurd hsame (hnotdot _ hT)
      · rw [if_neg hb0, if_pos ht0] at hsame
        exact absurd hsame.symm (hnotdot _ hB)
      · rw [if_neg hb0, if_neg ht0] at hsame
        exact relPath_inj _ _ hTseg hBseg hsame
    have hbt : ts = bs := List.append_cancel_left hBT
    subst hbt
    have hnil : ts = [] := by
      rcases hdiv with h | h | h
      · exact h
      · exact h
      · exact absurd rfl h
    subst hnil
    rw [Rel_same _ _ hsame]
    refine ⟨by simp, fun _ => ⟨['.'], rfl, fun _ _ => rfl, fun h => absurd rfl h, ?_⟩⟩
    intro h
    exact absurd ⟨rfl, rfl⟩ h
  · by_cases ht0 : cs ++ ts = []
    · -- the event path cleans to `.`, the host root does not
      have hcs : cs = [] := (List.append_eq_nil.mp ht0).1
      have hts : ts = [] := (List.append_eq_nil.mp ht0).2
      subst hcs hts
      have hbs : bs ≠ [] := by
        intro h
        subst h
        exact hsame (by rw [hct, hcb])
      have ht1 : Clean ev.Name = [] ++ relPath ([] ++ [['.']]) := by
        rw [hct]
        rfl
      have hdiv1 : bs = [] ∨ [['.']] = [] ∨ bs.head? ≠ [['.']].head? := by
        refine Or.inr (Or.inr ?_)
        cases bs with
        | nil => simp
        | cons b bs1 =>
          have := (hB b (by simp)).2
          simpa using this
      have hrel := Rel_paths s.HostPath ev.Name [] [] bs [['.']] (Or.inl rfl) hb1 ht1 hB
        (by simpa using hdotseg) hdiv1 hsame
      rw [hrel]
      refine ⟨fun h => by rw [if_pos h], fun h => ?_⟩
      rw [if_neg h]
      refine ⟨_, rfl, fun h0 => absurd h0 hbs, fun _ => ?_, fun _ h1 => absurd heT h1⟩
      obtain ⟨b, bs1, rfl⟩ : ∃ b bs1, bs = b :: bs1 := by
        cases bs with
        | nil => exact absurd rfl hbs
        | cons b bs1 => exact ⟨b, bs1, rfl⟩
      exact splitOn_dotdots_head bs1.length [['.']] hdotseg
    · have ht1 : Clean ev.Name = [] ++ relPath (cs ++ ts) := by
        rw [hct, if_neg ht0]
        rfl
      have hrel := Rel_paths s.HostPath ev.Name [] cs bs ts (Or.inl rfl) hb1 ht1 hB hTseg
        hdiv hsame
      rw [hrel]
      refine ⟨fun h => by rw [if_pos h], fun h => ?_⟩
      rw [if_neg h]
      refine ⟨_, rfl, fun h0 h1 => ?_, fun hbs => ?_, fun _ _ => rfl⟩
      · subst h0 h1
        exact absurd (by rw [hct, hcb]) hsame
      · obtain ⟨b, bs1, rfl⟩ : ∃ b bs1, bs = b :: bs1 := by
          cases bs with
          | nil => exact absurd rfl hbs
          | cons b bs1 => exact ⟨b, bs1, rfl⟩
        exact splitOn_dotdots_head bs1.length ts
          (fun e he => hTseg e (List.mem_append_right cs he))

/-- The function `getRelativePath` on two paths that are both rooted or both
relative: the elements of the two cleaned paths split into a common initial part
and two rests that are empty or start differently; it fails when the rest of the
host root starts with `..`, and otherwise returns `.` when both rests are empty,
and else one `..` for every element in the rest of the host root followed by the
rest of the event path. -/
theorem getRelativePath_lexical (ev : Event) (s : Syncer)
    (hsame : isRooted s.HostPath = isRooted ev.Name) :
    ∃ cs bs ts : List Str, elements s.HostPath = cs ++ bs ∧ elements ev.Name = cs ++ ts
      ∧ (∀ e ∈ cs ++ ts, isSeg e = true)
      ∧ (bs = [] ∨ ts = [] ∨ bs.head? ≠ ts.head?)
      ∧ (isRooted s.HostPath = true → bs.head? ≠ some ['.', '.'])
      ∧ (bs.head? = some ['.', '.'] →
          getRelativePath ev s = .error (relError s.HostPath ev.Name))
      ∧ (bs.head? ≠ some ['.', '.'] → ∃ r, getRelativePath ev s = .ok r
          ∧ (bs = [] → ts = [] → r = ['.'])
          ∧ (bs ≠ [] → (r.splitOn Separator).head? = some ['.', '.'])
          ∧ (¬(bs = [] ∧ ts = []) → (isRooted ev.Name = true ∨ elements ev.Name ≠ []) →
              r = relPath (List.replicate bs.length ['.', '.'] ++ ts))) := by
  cases hp : isRooted ev.Name
  · rw [hp] at hsame
    obtain ⟨cs, bs, ts, h1, h2, h3, h4, h5, h6⟩ := getRelativePath_relative ev s hsame hp
    refine ⟨cs, bs, ts, h1, h2, h3, h4, fun hr => ?_, h5, fun h => ?_⟩
    · rw [hsame] at hr
      exact absurd hr (by simp)
    obtain ⟨r, hr, ha, hb, hc⟩ := h6 h
    refine ⟨r, hr, ha, hb, fun hn ho => hc hn ?_⟩
    rcases ho with ho | ho
    · exact absurd ho (by simp)
    · exact ho
  · rw [hp] at hsame
    obtain ⟨cs, bs, ts, hB, hT, heB, heT, hdiv, hrel⟩ := getRelativePath_rooted ev s hsame hp
    have hTseg : ∀ e ∈ cs ++ ts, isSeg e = true := fun e he => isElem_isSeg (heT e he)
    have hnd : bs.head? ≠ some ['.', '.'] := by
      cases bs with
      | nil => simp
      | cons b bs1 =>
        have := isElem_ne_dotdot (heB b (by simp))
        simpa using this
    refine ⟨cs, bs, ts, hB, hT, hTseg, hdiv, fun _ => hnd, fun h => absurd h hnd, fun _ => ?_⟩
    · refine ⟨_, hrel, fun h0 h1 => by rw [if_pos ⟨h0, h1⟩], fun hbs => ?_,
        fun hn _ => by rw [if_neg hn]⟩
      rw [if_neg (fun h => hbs h.1)]
      obtain ⟨b, bs1, rfl⟩ : ∃ b bs1, bs = b :: bs1 := by
        cases bs with
        | nil => exact absurd rfl hbs
        | cons b bs1 => exact ⟨b, bs1, rfl⟩
      exact splitOn_dotdots_head bs1.length ts
        (fun e he => hTseg e (List.mem_append_right cs he))

/-- The meaning of `strictlyUnder`: the elements of the path are those of the
root followed by a non-empty list of proper elements. -/
theorem strictlyUnder_spec (root p : Str) (h : strictlyUnder root p = true) :
    isRooted root = isRooted p
      ∧ ∃ rs : List Str, rs ≠ [] ∧ (∀ e ∈ rs, isElem e = true)
          ∧ elements p = elements root ++ rs := by
  simp only [strictlyUnder, Bool.and_eq_true, beq_iff_eq, Bool.not_eq_true', List.all_eq_true,
    List.isEmpty_eq_false] at h
  obtain ⟨⟨⟨h1, h2⟩, h3⟩, h4⟩ := h
  obtain ⟨rs, hrs⟩ := List.isPrefixOf_iff_prefix.mp h2
  have hd : (elements p).drop (elements root).length = rs := by
    rw [← hrs]
    simp
  rw [hd] at h3 h4
  exact ⟨h1, rs, h3, h4, hrs.symm⟩

/-- Below the host root, rooted or not: the relative path is the rest of the
event path, with no leading separator and no `..` segment. -/
theorem getRelativePath_under (ev : Event) (s : Syncer)
    (hunder : strictlyUnder s.HostPath ev.Name = true) :
    ∃ r, getRelativePath ev s = .ok r
      ∧ r = relPath ((elements ev.Name).drop (elements s.HostPath).length)
      ∧ r.head? ≠ some Separator
      ∧ ['.', '.'] ∉ r.splitOn Separator := by
  obtain ⟨hsame, rs, hrs, helems, hel⟩ := strictlyUnder_spec _ _ hunder
  obtain ⟨cs, bs, ts, hB, hT, _, hdiv, _, _, hok⟩ := getRelativePath_lexical ev s hsame
  have hx : cs ++ ts = cs ++ (bs ++ rs) := by
    rw [← hT, hel, hB, List.append_assoc]
  have hx1 : ts = bs ++ rs := List.append_cancel_left hx
  have hbs : bs = [] := by
    cases bs with
    | nil => rfl
    | cons b bs1 =>
      subst hx1
      rcases hdiv with h | h | h
      · exact h
      · simp at h
      · simp at h
  subst hbs
  have hts : ts = rs := by simpa using hx1
  subst hts
  obtain ⟨r, hr, _, _, hval⟩ := hok (by simp)
  have hne : elements ev.Name ≠ [] := by
    rw [hel]
    simp [hrs]
  have hr2 : r = relPath ts := by
    simpa using hval (fun h => hrs h.2) (Or.inr hne)
  subst hr2
  refine ⟨relPath ts, hr, ?_, relPath_head_ne_sep ts hrs helems, ?_⟩
  · rw [hel]
    simp
  · rw [splitOn_relPath ts hrs (fun e he => isElem_sepfree (helems e he))]
    intro hmem
    have := helems _ hmem
    simp [isElem] at this
/-! ## The two versions of `fsnotify.Op.Has` -/

theorem land_two_pow (o k : Nat) : o &&& 2 ^ k = if o.testBit k then 2 ^ k else 0 := by
  apply Nat.eq_of_testBit_eq
  intro j
  rw [Nat.testBit_and, Nat.testBit_two_pow]
  by_cases hkj : k = j
  · subst hkj
    cases h : o.testBit k <;> simp [Nat.testBit_two_pow_self]
  · cases h : o.testBit k <;> simp [hkj, Nat.testBit_two_pow]

/-- For each of the four kinds the handler tests, the two published versions
of `Op.Has`, `o&h != 0` and `o&h == h`, agree. -/
theorem Has_eq_mask (e : Event) :
    e.Has Write = (e.Op &&& Write == Write) ∧ e.Has Create = (e.Op &&& Create == Create)
    ∧ e.Has Remove = (e.Op &&& Remove == Remove)
    ∧ e.Has Rename = (e.Op &&& Rename == Rename) := by
  have h0 := land_two_pow e.Op 0
  have h1 := land_two_pow e.Op 1
  have h2 := land_two_pow e.Op 2
  have h3 := land_two_pow e.Op 3
  simp only [Nat.pow_zero, Nat.pow_one, Nat.reducePow] at h0 h1 h2 h3
  simp only [Event.Has, Write, Create, Remove, Rename, h0, h1, h2, h3]
  refine ⟨?_, ?_, ?_, ?_⟩ <;> split <;> simp

/-! ## The claims -/

/-- C1 (counterexample): with a failing container runtime the copy of a write
event on `/src/a/b.txt` fails, and the ownership command is issued all the
same, right after it. -/
theorem C1_chown_after_failed_copy :
    envFail.run [] (copyCommand ⟨demoPath, Write⟩ demo) = some "exit status 1".toList
    ∧ eventHandler envFail ⟨demoPath, Write⟩ demo []
      = [ Effect.exec ⟨"docker".toList, ["cp".toList, "/src/a/b.txt".toList, "web:/app".toList]⟩,
          Effect.print Color.red ["exit status 1".toList, "can't copy to container".toList],
          Effect.exec ⟨"docker".toList, ["exec".toList, "web".toList, "chown".toList,
            "www-data:www-data".toList, "/app/a/b.txt".toList]⟩,
          Effect.print Color.red ["exit status 1".toList, "can't remove from container".toList] ] := by
  decide

/-- C1 (amended): for every event that is not a backup file, carries write or
create and whose relative path resolves, `eventHandler` issues the copy command
and, immediately after it, the ownership command, whatever the outcome of the
copy (the environment is arbitrary); when the relative path does not resolve,
neither command is issued. -/
theorem C1_chown_follows_copy_unconditionally (env : Env) (ev : Event) (s : Syncer) (tr : Trace)
    (hb : HasSuffix ev.Name "~".toList = false)
    (hk : ev.Has Write = true ∨ ev.Has Create = true) :
    (∀ r, getRelativePath ev s = .ok r →
      ∃ rest, commands (eventHandler env ev s tr)
        = commands tr ++ copyCommand ev s :: chownCommand s r :: rest)
    ∧ (∀ e, getRelativePath ev s = .error e →
      commands (eventHandler env ev s tr) = commands tr) := by
  constructor
  · intro r h
    rw [eventHandler_commands env ev s tr r hb h]
    rcases hk with hw | hc
    · rw [hw]
      simp
    · rw [hc]
      cases ev.Has Write <;> simp
  · intro e h
    rw [eventHandler_of_error env ev s tr e hb h]

/-- C1 (witness): the amended statement at the failing runtime and a write on
`/src/a/b.txt`, whose relative path is `a/b.txt`. -/
theorem C1_chown_follows_copy_witness :
    ∃ rest, commands (eventHandler envFail ⟨demoPath, Write⟩ demo [])
      = commands [] ++ copyCommand ⟨demoPath, Write⟩ demo
          :: chownCommand demo "a/b.txt".toList :: rest :=
  (C1_chown_follows_copy_unconditionally envFail ⟨demoPath, Write⟩ demo []
    (by decide) (Or.inl (by decide))).1 "a/b.txt".toList (by decide)

/-- C2 (counterexample): an event on `/src/a/b.txt` that carries write and
remove gets the copy, the ownership command and also the delete command. -/
theorem C2_write_and_remove_also_deletes :
    (Event.mk demoPath 6).Has Write = true ∧ (Event.mk demoPath 6).Has Remove = true
    ∧ HasSuffix demoPath "~".toList = false
    ∧ commands (eventHandler envOk ⟨demoPath, 6⟩ demo [])
      = [ ⟨"docker".toList, ["cp".toList, "/src/a/b.txt".toList, "web:/app".toList]⟩,
          ⟨"docker".toList, ["exec".toList, "web".toList, "chown".toList,
            "www-data:www-data".toList, "/app/a/b.txt".toList]⟩,
          ⟨"docker".toList, ["exec".toList, "web".toList, "rm".toList,
            "/app/a/b.txt".toList]⟩ ] := by
  decide

/-- C2 (amended): for every event whose path does not end in `~` and whose
relative path resolves to `r`, `eventHandler` treats the four kinds
independently and in the order write, create, remove, rename: copy then
ownership for write, copy then ownership again for create, a delete for remove
and a delete again for rename.  So only an event without remove and rename
issues no delete, only an event without write and create issues no copy or
ownership command, and an event with none of the four kinds issues nothing. -/
theorem C2_kinds_handled_independently (env : Env) (ev : Event) (s : Syncer) (tr : Trace)
    (r : Str) (hb : HasSuffix ev.Name "~".toList = false)
    (h : getRelativePath ev s = .ok r) :
    commands (eventHandler env ev s tr)
      = commands tr
        ++ (if ev.Has Write then [copyCommand ev s, chownCommand s r] else [])
        ++ (if ev.Has Create then [copyCommand ev s, chownCommand s r] else [])
        ++ (if ev.Has Remove then [removeCommand s r] else [])
        ++ (if ev.Has Rename then [removeCommand s r] else []) :=
  eventHandler_commands env ev s tr r hb h

/-- C2 (witness): the amended statement at an event carrying all four kinds. -/
theorem C2_kinds_handled_independently_witness :
    commands (eventHandler envOk ⟨demoPath, 15⟩ demo [])
      = commands []
        ++ (if (Event.mk demoPath 15).Has Write
            then [copyCommand ⟨demoPath, 15⟩ demo, chownCommand demo "a/b.txt".toList] else [])
        ++ (if (Event.mk demoPath 15).Has Create
            then [copyCommand ⟨demoPath, 15⟩ demo, chownCommand demo "a/b.txt".toList] else [])
        ++ (if (Event.mk demoPath 15).Has Remove
            then [removeCommand demo "a/b.txt".toList] else [])
        ++ (if (Event.mk demoPath 15).Has Rename
            then [removeCommand demo "a/b.txt".toList] else []) :=
  C2_kinds_handled_independently envOk ⟨demoPath, 15⟩ demo [] "a/b.txt".toList
    (by decide) (by decide)

/-- C3 (counterexample): an event carrying write and create issues two copies
and two ownership changes; an event carrying remove and rename issues two
deletes. -/
theorem C3_two_kinds_two_commands :
    (commands (eventHandler envOk ⟨demoPath, 3⟩ demo [])).countP isCopy = 2
    ∧ (commands (eventHandler envOk ⟨demoPath, 3⟩ demo [])).countP isChown = 2
    ∧ (commands (eventHandler envOk ⟨demoPath, 12⟩ demo [])).countP isDelete = 2 := by
  decide

/-- C3 (amended): for every event, `eventHandler` issues each kind of container
command at most twice (one copy and one ownership change for each of write and
create, one delete for each of remove and rename), and at most once when the
event does not carry both write and create, respectively both remove and
rename. -/
theorem C3_each_command_at_most_per_kind (env : Env) (ev : Event) (s : Syncer) (tr : Trace) :
    (commands (eventHandler env ev s tr)).countP isCopy ≤ (commands tr).countP isCopy + 2
    ∧ (commands (eventHandler env ev s tr)).countP isChown ≤ (commands tr).countP isChown + 2
    ∧ (commands (eventHandler env ev s tr)).countP isDelete ≤ (commands tr).countP isDelete + 2
    ∧ ((ev.Has Write && ev.Has Create) = false →
        (commands (eventHandler env ev s tr)).countP isCopy ≤ (commands tr).countP isCopy + 1
        ∧ (commands (eventHandler env ev s tr)).countP isChown
            ≤ (commands tr).countP isChown + 1)
    ∧ ((ev.Has Remove && ev.Has Rename) = false →
        (commands (eventHandler env ev s tr)).countP isDelete
          ≤ (commands tr).countP isDelete + 1) := by
  cases hb : HasSuffix ev.Name "~".toList with
  | true =>
    rw [eventHandler_of_backup env ev s tr hb]
    simp [commands_append, commands]
  | false =>
    cases h : getRelativePath ev s with
    | error e =>
      rw [eventHandler_of_error env ev s tr e hb h]
      simp
    | ok r =>
      obtain ⟨h1, h2, h3⟩ := eventHandler_counts env ev s tr r hb h
      rw [h1, h2, h3]
      cases ev.Has Write <;> cases ev.Has Create <;> cases ev.Has Remove <;>
        cases ev.Has Rename <;> simp

/-- C3 (witness): an event carrying only write issues at most one copy and
one ownership change. -/
theorem C3_each_command_at_most_per_kind_witness :
    (commands (eventHandler envOk ⟨demoPath, Write⟩ demo [])).countP isCopy
        ≤ (commands []).countP isCopy + 1
    ∧ (commands (eventHandler envOk ⟨demoPath, Write⟩ demo [])).countP isChown
        ≤ (commands []).countP isChown + 1 :=
  (C3_each_command_at_most_per_kind envOk ⟨demoPath, Write⟩ demo []).2.2.2.1 (by decide)

/-- C4: for every event whose path ends in `~`, whatever kinds it carries,
`eventHandler` only prints the informational message: it issues no external
command and registers nothing. -/
theorem C4_backup_file_ignored (env : Env) (ev : Event) (s : Syncer) (tr : Trace)
    (hb : HasSuffix ev.Name "~".toList = true) :
    eventHandler env ev s tr = tr ++ [Effect.print Color.cyan ["Skipping: ".toList, ev.Name]]
    ∧ commands (eventHandler env ev s tr) = commands tr
    ∧ registrations (eventHandler env ev s tr) = registrations tr := by
  rw [eventHandler_of_backup env ev s tr hb]
  simp [commands_append, commands, registrations_append, registrations]

/-- C4 (witness): a write on `/src/.notes.txt~`. -/
theorem C4_backup_file_ignored_witness :
    eventHandler envOk ⟨"/src/.notes.txt~".toList, Write⟩ demo []
      = [] ++ [Effect.print Color.cyan ["Skipping: ".toList, "/src/.notes.txt~".toList]]
    ∧ commands (eventHandler envOk ⟨"/src/.notes.txt~".toList, Write⟩ demo []) = commands []
    ∧ registrations (eventHandler envOk ⟨"/src/.notes.txt~".toList, Write⟩ demo [])
        = registrations [] :=
  C4_backup_file_ignored envOk ⟨"/src/.notes.txt~".toList, Write⟩ demo [] (by decide)

/-- C6 (counterexample): a create event for the new directory `/src/newdir`
is copied and chowned like a file, and nothing is handed to `watcher.Add`. -/
theorem C6_new_directory_not_registered :
    eventHandler envOk ⟨"/src/newdir".toList, Create⟩ demo []
      = [ Effect.exec ⟨"docker".toList, ["cp".toList, "/src/newdir".toList, "web:/app".toList]⟩,
          Effect.print Color.green ["Copied: newdir to web:/app/newdir".toList],
          Effect.exec ⟨"docker".toList, ["exec".toList, "web".toList, "chown".toList,
            "www-data:www-data".toList, "/app/newdir".toList]⟩ ]
    ∧ registrations (eventHandler envOk ⟨"/src/newdir".toList, Create⟩ demo []) = [] := by
  decide

/-- C6 (amended): `eventHandler` never calls `watcher.Add`: for every event,
also a create event for a directory, the registrations after the event are
those before it, and so they are after any sequence of events and watcher
errors.  Directories are registered only by `dirWalker`. -/
theorem C6_eventHandler_registers_nothing (env : Env) (ev : Event) (s : Syncer) (tr : Trace) :
    registrations (eventHandler env ev s tr) = registrations tr
    ∧ ∀ ds : List Delivery, registrations (eventLoop env s ds tr) = registrations tr :=
  ⟨eventHandler_registrations env ev s tr, fun ds => eventLoop_registrations env s ds tr⟩

/-- C7: for every configuration and every event on a non-backup path that
carries write and none of create, remove, rename, with relative path `r`, when
the copy succeeds `eventHandler` issues exactly two commands, in this order:
`docker cp <path> <container>:<containerPath>` and
`docker exec <container> chown <user>:<group> <containerPath>/<r>`; and when
the path lies strictly under the host root, `r` is the rest of the path below
the root. -/
theorem C7_write_copies_then_chowns (env : Env) (ev : Event) (s : Syncer) (tr : Trace) (r : Str)
    (hb : HasSuffix ev.Name "~".toList = false)
    (hw : ev.Has Write = true) (hc : ev.Has Create = false)
    (hrm : ev.Has Remove = false) (hrn : ev.Has Rename = false)
    (h : getRelativePath ev s = .ok r)
    (hcopy : env.run tr ⟨"docker".toList,
      ["cp".toList, ev.Name, s.ContainerName ++ ":".toList ++ s.ContainerPath]⟩ = none) :
    commands (eventHandler env ev s tr)
      = commands tr ++
        [ ⟨"docker".toList,
            ["cp".toList, ev.Name, s.ContainerName ++ ":".toList ++ s.ContainerPath]⟩,
          ⟨"docker".toList,
            ["exec".toList, s.ContainerName, "chown".toList,
              s.UserName ++ ":".toList ++ s.GroupName,
              s.ContainerPath ++ "/".toList ++ r]⟩ ]
    ∧ copyFromHostToContainer env ev s tr
      = tr ++
        [ Effect.exec ⟨"docker".toList,
            ["cp".toList, ev.Name, s.ContainerName ++ ":".toList ++ s.ContainerPath]⟩,
          Effect.print Color.green ["Copied: ".toList ++ r ++ " to ".toList
            ++ s.ContainerName ++ ":".toList ++ (s.ContainerPath ++ "/".toList ++ r)] ]
    ∧ (strictlyUnder s.HostPath ev.Name = true →
        r = relPath ((elements ev.Name).drop (elements s.HostPath).length)) := by
  refine ⟨?_, ?_, fun hu => ?_⟩
  · rw [eventHandler_commands env ev s tr r hb h, hw, hc, hrm, hrn]
    simp [copyCommand, chownCommand]
  · unfold copyFromHostToContainer
    rw [h]
    simp only [copyCommand]
    rw [hcopy]
  · obtain ⟨r1, hr1, hv, _⟩ := getRelativePath_under ev s hu
    rw [h] at hr1
    rw [← hv]
    exact Except.ok.inj hr1

/-- C7 (witness): host root `/src`, container path `/app`, container `web`,
write on `/src/a/b.txt`: copy to `web:/app`, then chown on `/app/a/b.txt`. -/
theorem C7_write_copies_then_chowns_witness :
    commands (eventHandler envOk ⟨demoPath, Write⟩ demo [])
      = [ ⟨"docker".toList, ["cp".toList, "/src/a/b.txt".toList, "web:/app".toList]⟩,
          ⟨"docker".toList, ["exec".toList, "web".toList, "chown".toList,
            "www-data:www-data".toList, "/app/a/b.txt".toList]⟩ ]
    ∧ copyFromHostToContainer envOk ⟨demoPath, Write⟩ demo []
      = [ Effect.exec ⟨"docker".toList,
            ["cp".toList, "/src/a/b.txt".toList, "web:/app".toList]⟩,
          Effect.print Color.green ["Copied: a/b.txt to web:/app/a/b.txt".toList] ]
    ∧ "a/b.txt".toList = relPath ((elements demoPath).drop (elements demo.HostPath).length) :=
  have h := C7_write_copies_then_chowns envOk ⟨demoPath, Write⟩ demo [] "a/b.txt".toList
    (by decide) (by decide) (by decide) (by decide) (by decide) (by decide) rfl
  ⟨h.1, h.2.1, h.2.2 (by decide)⟩

/-- C8: for every configuration and every event on a non-backup path that
carries remove and none of write, create, rename, with relative path `r`,
`eventHandler` issues exactly one command,
`docker exec <container> rm <containerPath>/<r>`, and hence no copy and no
ownership command; and when the path lies strictly under the host root, `r` is
the rest of the path below the root. -/
theorem C8_remove_deletes_only (env : Env) (ev : Event) (s : Syncer) (tr : Trace) (r : Str)
    (hb : HasSuffix ev.Name "~".toList = false)
    (hw : ev.Has Write = false) (hc : ev.Has Create = false)
    (hrm : ev.Has Remove = true) (hrn : ev.Has Rename = false)
    (h : getRelativePath ev s = .ok r) :
    commands (eventHandler env ev s tr)
      = commands tr ++
        [ ⟨"docker".toList,
            ["exec".toList, s.ContainerName, "rm".toList,
              s.ContainerPath ++ "/".toList ++ r]⟩ ]
    ∧ (commands (eventHandler env ev s tr)).countP isCopy = (commands tr).countP isCopy
    ∧ (commands (eventHandler env ev s tr)).countP isChown = (commands tr).countP isChown
    ∧ (strictlyUnder s.HostPath ev.Name = true →
        r = relPath ((elements ev.Name).drop (elements s.HostPath).length)) := by
  obtain ⟨h1, h2, _⟩ := eventHandler_counts env ev s tr r hb h
  rw [h1, h2, eventHandler_commands env ev s tr r hb h, hw, hc, hrm, hrn]
  refine ⟨by simp [removeCommand], by simp, by simp, fun hu => ?_⟩
  obtain ⟨r1, hr1, hv, _⟩ := getRelativePath_under ev s hu
  rw [h] at hr1
  rw [← hv]
  exact Except.ok.inj hr1

/-- C8 (witness): host root `/src`, container path `/app`, remove on
`/src/a/b.txt`: the only command deletes `/app/a/b.txt`. -/
theorem C8_remove_deletes_only_witness :
    commands (eventHandler envOk ⟨demoPath, Remove⟩ demo [])
      = commands [] ++
        [ ⟨"docker".toList, ["exec".toList, "web".toList, "rm".toList, "/app/a/b.txt".toList]⟩ ]
    ∧ (commands (eventHandler envOk ⟨demoPath, Remove⟩ demo [])).countP isCopy
        = (commands []).countP isCopy
    ∧ (commands (eventHandler envOk ⟨demoPath, Remove⟩ demo [])).countP isChown
        = (commands []).countP isChown
    ∧ "a/b.txt".toList = relPath ((elements demoPath).drop (elements demo.HostPath).length) :=
  have h := C8_remove_deletes_only envOk ⟨demoPath, Remove⟩ demo [] "a/b.txt".toList
    (by decide) (by decide) (by decide) (by decide) (by decide) (by decide)
  ⟨h.1, h.2.1, h.2.2.1, h.2.2.2 (by decide)⟩

/-- C9: for every event and configuration for which `getRelativePath` fails,
`eventHandler` (a total function: it always returns) issues no external command
and registers nothing, whatever kinds the event carries; unless the path is a
backup file, it does nothing at all. -/
theorem C9_unresolvable_path_dropped (env : Env) (ev : Event) (s : Syncer) (tr : Trace) (e : Str)
    (h : getRelativePath ev s = .error e) :
    commands (eventHandler env ev s tr) = commands tr
    ∧ registrations (eventHandler env ev s tr) = registrations tr
    ∧ (HasSuffix ev.Name "~".toList = false → eventHandler env ev s tr = tr) := by
  refine ⟨?_, eventHandler_registrations env ev s tr, fun hb =>
    eventHandler_of_error env ev s tr e hb h⟩
  cases hb : HasSuffix ev.Name "~".toList with
  | true =>
    rw [eventHandler_of_backup env ev s tr hb]
    simp [commands_append, commands]
  | false => rw [eventHandler_of_error env ev s tr e hb h]

/-- C9 (witness): the relative event path `a/b.txt` cannot be made relative to
`/src`; an event on it carrying all four kinds does nothing. -/
theorem C9_unresolvable_path_dropped_witness :
    getRelativePath ⟨"a/b.txt".toList, 15⟩ demo
      = .error "Rel: can't make a/b.txt relative to /src".toList
    ∧ commands (eventHandler envOk ⟨"a/b.txt".toList, 15⟩ demo []) = commands []
    ∧ registrations (eventHandler envOk ⟨"a/b.txt".toList, 15⟩ demo []) = registrations []
    ∧ eventHandler envOk ⟨"a/b.txt".toList, 15⟩ demo [] = [] :=
  have h := C9_unresolvable_path_dropped envOk ⟨"a/b.txt".toList, 15⟩ demo []
    "Rel: can't make a/b.txt relative to /src".toList (by decide)
  ⟨by decide, h.1, h.2.1, h.2.2 (by decide)⟩

/-- C10: for every entry of the walk, `dirWalker` calls `watcher.Add` on the
entry path if and only if the file info is present and is a directory (and it
then returns what `watcher.Add` returns); for a regular file or a missing file
info it does nothing and returns no error. -/
theorem C10_dirWalker_registers_directories_only (env : Env) (path : Str)
    (fi : Option FileInfo) (err : Option Str) (tr : Trace) :
    (registrations (dirWalker env path fi err tr).2 = registrations tr ++ [path]
      ↔ ∃ info, fi = some info ∧ IsDir info.Mode = true)
    ∧ ((∃ info, fi = some info ∧ IsDir info.Mode = true) →
        dirWalker env path fi err tr = (env.add tr path, tr ++ [Effect.watchAdd path]))
    ∧ ((fi = none ∨ ∃ info, fi = some info ∧ IsDir info.Mode = false) →
        dirWalker env path fi err tr = (none, tr)) := by
  cases fi with
  | none => simp [dirWalker]
  | some info =>
    cases hd : IsDir info.Mode <;> simp [dirWalker, hd, registrations_append, registrations]

/-- C10 (witness): a directory entry (mode `drwxr-xr-x`) is handed to
`watcher.Add`; a regular file (mode `-rw-r--r--`) and a missing file info are
not. -/
theorem C10_dirWalker_registers_directories_only_witness :
    dirWalker envOk "/src/a".toList (some ⟨2147484141⟩) none []
      = (none, [Effect.watchAdd "/src/a".toList])
    ∧ dirWalker envOk "/src/a/b.txt".toList (some ⟨420⟩) none [] = (none, [])
    ∧ dirWalker envOk "/src/gone".toList none (some "no such file".toList) [] = (none, []) :=
  have h1 := C10_dirWalker_registers_directories_only envOk "/src/a".toList
    (some ⟨2147484141⟩) none []
  have h2 := C10_dirWalker_registers_directories_only envOk "/src/a/b.txt".toList
    (some ⟨420⟩) none []
  have h3 := C10_dirWalker_registers_directories_only envOk "/src/gone".toList
    none (some "no such file".toList) []
  ⟨h1.2.1 ⟨⟨2147484141⟩, rfl, by decide⟩, h2.2.2 (Or.inr ⟨⟨420⟩, rfl, by decide⟩),
    h3.2.2 (Or.inl rfl)⟩

end DockerSync
